import Mathlib

/-!
Verification of the core of `gitshelve.py`: a path-keyed, dictionary-like
store that mirrors a git branch.  The in-memory state is a nested Python
dictionary (`self.objects`) whose keys are path components; the sentinel
key `__book__` marks a leaf holding a `gitbook`, and the sentinel key
`__root__` caches the persisted hash of a directory.  The git object store
(blobs, trees, commits, refs) is modelled as explicit finite maps inside
the state, with content-addressed hashing modelled by injective encodings
of the object content.

Stateful operations are modelled as functions `GS → Except Err α × GS`:
the returned state carries all mutations performed before an exception was
raised, matching Python semantics where a raised exception does not undo
prior in-place mutation.
-/

namespace Gitshelve

/-- Errors raised by the Python code: `KeyError` (with its key),
`TypeError`/`AttributeError` (merged, both signal a wrongly-shaped node),
`ValueError` (a `gitbook` with neither name nor data), and `GitError`
(a failing git subprocess). -/
inductive Err where
  | keyError (k : String)
  | typeError
  | valueError
  | gitError
deriving DecidableEq, Repr

/-- The `gitbook` record: a path, an optional persisted blob hash (`name`),
optional cached data, and a dirty flag. -/
structure Book where
  path : String
  name : Option String
  data : Option String
  dirty : Bool
deriving DecidableEq, Repr

/-- A value stored in the nested `objects` dictionary.  A dictionary is a
spine of `dcons` cells ending in `dnil` (keys in insertion order, as in
Python); `book` is a `gitbook` stored under the `__book__` sentinel, and
`str` is a raw hash string stored under the `__root__` sentinel. -/
inductive Obj where
  | dnil : Obj
  | dcons (key : String) (val : Obj) (rest : Obj) : Obj
  | book (b : Book) : Obj
  | str (s : String) : Obj
deriving DecidableEq, Repr

namespace Obj

/-- Dictionary lookup (Python `d[k]` / `d.get(k)`), first matching key. -/
def dlookup (k : String) : Obj → Option Obj
  | .dcons k1 v rest => if k1 = k then some v else dlookup k rest
  | _ => none

/-- Python `k in d` membership test on a dictionary. -/
def dmem (k : String) (d : Obj) : Bool := (dlookup k d).isSome

/-- Dictionary update `d[k] = v`: replaces the first binding of `k` in
place, or appends a new binding at the end (Python insertion order). -/
def dinsert (k : String) (v : Obj) : Obj → Obj
  | .dcons k1 v1 rest => if k1 = k then .dcons k v rest else .dcons k1 v1 (dinsert k v rest)
  | d => .dcons k v d

/-- Dictionary deletion `del d[k]` (first binding). -/
def derase (k : String) : Obj → Obj
  | .dcons k1 v rest => if k1 = k then rest else .dcons k1 v (derase k rest)
  | d => d

/-- Number of keys of a dictionary (`len(d)` for dict values). -/
def dlen : Obj → Nat
  | .dcons _ _ rest => 1 + dlen rest
  | _ => 0

/-- Whether a value is a dictionary (`isinstance(obj, dict)`). -/
def isDict : Obj → Bool
  | .dnil => true
  | .dcons _ _ _ => true
  | _ => false

/-- Python `len(v)` as used by `prune_tree`: length for dictionaries and
strings, `TypeError` for a `gitbook`. -/
def pyLen : Obj → Except Err Nat
  | .book _ => .error .typeError
  | .str s => .ok s.length
  | d => .ok (dlen d)

/-- The leaf-node test of `make_tree` and `walker`:
`len(list(obj.keys())) == 1 and '__book__' in obj`. -/
def isLeaf (v : Obj) : Bool := dlen v == 1 && dmem "__book__" v

end Obj

open Obj

/-- A commit object in the modelled git store: one tree hash, at most one
parent hash, and a message. -/
structure CommitObj where
  tree : String
  parent : Option String
  message : String
deriving DecidableEq, Repr

/-- Update-or-append on an association list (the modelled object store is
keyed by hash; writing the same hash twice overwrites identical content). -/
def alSet {β : Type} (k : String) (v : β) : List (String × β) → List (String × β)
  | [] => [(k, v)]
  | (k1, v1) :: rest => if k1 = k then (k, v) :: rest else (k1, v1) :: alSet k v rest

/-- The full state: the `gitshelve` instance fields (`branch`,
`keep_history`, `head`, `dirty`, `objects`) together with the modelled
persistent git object store (blobs, trees, commits and branch refs). -/
structure GS where
  branch : String
  keepHistory : Bool
  head : Option String
  dirty : Bool
  objects : Obj
  blobs : List (String × String)
  trees : List (String × String)
  commits : List (String × CommitObj)
  refs : List (String × String)
deriving DecidableEq, Repr

/-- Content hash of a blob (`git hash-object --stdin`): modelled as an
injective encoding of the data, so identical bytes give identical hashes
and different bytes give different hashes. -/
def hashBlob (data : String) : String := "B" ++ data

/-- Content hash of a tree (`git mktree -z`), a function of the entry
buffer fed to it. -/
def hashTree (buf : String) : String := "T" ++ buf

/-- Content hash of a commit (`git commit-tree`), a function of tree,
parent and message. -/
def hashCommit (tree : String) (parent : Option String) (msg : String) : String :=
  "C" ++ tree ++ "," ++ (match parent with | some p => p | none => "") ++ "," ++ msg

/-- Python string formatting of a possibly-`None` value (`"%s" % name`). -/
def optStr : Option String → String
  | some s => s
  | none => "None"

/-- Split a character list on a separator; `splitChars sep s` always
returns at least one (possibly empty) chunk, like Python `s.split(sep)`. -/
def splitChars (sep : Char) : List Char → List (List Char)
  | [] => [[]]
  | c :: rest =>
    match splitChars sep rest with
    | h :: t => if c = sep then [] :: h :: t else (c :: h) :: t
    | [] => [[c]]

/-- Path splitting `path.split(os.sep)` with `os.sep = '/'`. -/
def pathSplit (p : String) : List String := (splitChars '/' p.data).map String.mk

/-- The data a dirty book writes: its cached data, or the empty string
when `data` is `None` (Python pipes nothing to `git hash-object`). -/
def bookData (b : Book) : String :=
  match b.data with
  | some s => s
  | none => ""

/-- The body of `gitbook.set_data`: a no-op when the new data equals the
cached data, otherwise clear the hash, store the data and mark dirty. -/
def setData (b : Book) (data : String) : Book :=
  if b.data ≠ some data then { b with name := none, data := some data, dirty := true } else b

/-- The body of `gitbook.get_data` (with the identity
`deserialize_data`): return cached data, else fetch the blob by hash from
the store and cache it; `ValueError` when neither name nor data is set. -/
def getData (g : GS) (b : Book) : Except Err (String × Book) :=
  match b.data with
  | some d => .ok (d, b)
  | none =>
    match b.name with
    | none => .error .valueError
    | some n =>
      match g.blobs.lookup n with
      | some blob => .ok (blob, { b with data := some blob })
      | none => .error .gitError

/-- The path walk shared by `get_tree` callers that only read
(`__contains__`, and the resolution part of `__getitem__`): follow the
components, `KeyError` on a missing key, `TypeError` when indexing into a
non-dictionary. -/
def lookupPath : List String → Obj → Except Err Obj
  | [], d => .ok d
  | part :: ps, d =>
    if isDict d then
      match dlookup part d with
      | some x => lookupPath ps x
      | none => .error (.keyError part)
    else .error .typeError

/-- The path walk of `get_tree` with in-place mutation: walk the
components (creating missing dictionaries when `makeDirs` is set, as
`make_dirs=True` does), then transform the final node with `f`, and
rebuild the spine.  `f` also returns an auxiliary result. -/
def modPath {α : Type} (f : Obj → Except Err (Obj × α)) (makeDirs : Bool) :
    List String → Obj → Except Err (Obj × α)
  | [], d => f d
  | part :: ps, d =>
    if isDict d then
      match dlookup part d with
      | some x =>
        match modPath f makeDirs ps x with
        | .ok (x1, a) => .ok (dinsert part x1 d, a)
        | .error e => .error e
      | none =>
        if makeDirs then
          match modPath f makeDirs ps .dnil with
          | .ok (x1, a) => .ok (dinsert part x1 d, a)
          | .error e => .error e
        else .error (.keyError part)
    else .error .typeError

/-- The transformer applied by `__setitem__` at the final node: if the
node has no `__book__` entry it is cleared and a fresh book for `path` is
installed; then `set_data` runs on the book. -/
def setItemAt (path : String) (data : String) (d : Obj) : Except Err (Obj × Unit) :=
  if isDict d then
    match dlookup "__book__" d with
    | some (.book b) => .ok (dinsert "__book__" (.book (setData b data)) d, ())
    | some _ => .error .typeError
    | none => .ok (.dcons "__book__" (.book (setData (Book.mk path none none false) data)) .dnil, ())
  else .error .typeError

/-- `gitshelve.__setitem__`: walk/create the path, install or update the
book, and unconditionally mark the whole shelf dirty. -/
def setItem (p : String) (data : String) (g : GS) : Except Err Unit × GS :=
  match modPath (setItemAt p data) true (pathSplit p) g.objects with
  | .ok (objects1, ()) => (.ok (), { g with objects := objects1, dirty := true })
  | .error e => (.error e, g)

/-- The transformer applied by `__getitem__` at the final node: a
dictionary with a `__book__` book yields the book data (lazily loading and
caching it), anything else raises `KeyError` (or `TypeError` for a
book-valued slot). -/
def getItemAt (g : GS) (p : String) (d : Obj) : Except Err (Obj × String) :=
  if isDict d then
    match dlookup "__book__" d with
    | some (.book b) =>
      match getData g b with
      | .ok (s, b1) => .ok (dinsert "__book__" (.book b1) d, s)
      | .error e => .error e
    | some _ => .error .typeError
    | none => .error (.keyError p)
  else
    match d with
    | .str _ => .error (.keyError p)
    | _ => .error .typeError

/-- `gitshelve.__getitem__`: resolve the path (re-raising any `KeyError`
as `KeyError(path)`) and return the leaf book's data, caching a lazily
loaded blob back into the tree. -/
def getItem (p : String) (g : GS) : Except Err String × GS :=
  match modPath (getItemAt g p) false (pathSplit p) g.objects with
  | .ok (objects1, s) => (.ok s, { g with objects := objects1 })
  | .error (.keyError _) => (.error (.keyError p), g)
  | .error e => (.error e, g)

/-- `gitshelve.__contains__`: resolve the path with `get_tree` (errors,
including `KeyError` for an unresolved path, propagate to the caller) and
test `len(list(d.keys())) == 1 and '__book__' in d`. -/
def containsItem (p : String) (g : GS) : Except Err Bool :=
  match lookupPath (pathSplit p) g.objects with
  | .ok d => if isDict d then .ok (dlen d == 1 && dmem "__book__" d) else .error .typeError
  | .error e => .error e

/-- The root-cache cleanup loop inside `prune_tree`:
`for tree in objects: if '__root__' in objects[tree]: del objects[tree]['__root__']`.
Membership on a `gitbook` value raises `TypeError`; on a string value the
substring test is false for hash strings, so the entry is kept. -/
def cleanupLoop : Obj → Except Err Obj
  | .dnil => .ok .dnil
  | .dcons _ (.book _) _ => .error .typeError
  | .dcons k (.str s) rest =>
    match cleanupLoop rest with
    | .ok rest1 => .ok (.dcons k (.str s) rest1)
    | .error e => .error e
  | .dcons k v rest =>
    match cleanupLoop rest with
    | .ok rest1 => .ok (.dcons k (derase "__root__" v) rest1)
    | .error e => .error e
  | d => .ok d

/-- The full cached-root invalidation performed by `prune_tree` when
something is left at the pruning point: drop the level's own `__root__`
entry and every immediate child's `__root__` entry. -/
def cleanupRoots (d : Obj) : Except Err Obj := cleanupLoop (derase "__root__" d)

/-- `gitshelve.prune_tree`: delete the node at the path and collapse
now-empty ancestors.  Returns the Python return value (an integer), the
updated dictionary, and whether `self.dirty = True` was executed; the
updated dictionary is returned even on error, since Python keeps in-place
mutations made before an exception. -/
def pruneTree : List String → Obj → Except Err Int × Obj × Bool
  | [], d => (.error .typeError, d, false)
  | [p0], d =>
    match dlookup p0 d with
    | none => (.error (.keyError p0), d, false)
    | some v =>
      match pyLen v with
      | .ok l => (.ok ((l : Int) - 1), derase p0 d, true)
      | .error e => (.error e, d, false)
  | p0 :: p1 :: ps, d =>
    if isDict d then
      match dlookup p0 d with
      | none => (.error (.keyError p0), d, false)
      | some child =>
        match pruneTree (p1 :: ps) child with
        | (.error e, child1, dirt) => (.error e, dinsert p0 child1 d, dirt)
        | (.ok left, child1, dirt) =>
          let d1 := dinsert p0 child1 d
          let hasRoot : Nat := if dmem "__root__" child1 then 1 else 0
          if left > 0 ∨ dlen child1 > hasRoot then
            match cleanupRoots d1 with
            | .ok d2 => (.ok 3, d2, dirt)
            | .error e => (.error e, d1, dirt)
          else
            match dlookup p0 d1 with
            | none => (.error (.keyError p0), d1, dirt)
            | some v =>
              match pyLen v with
              | .ok l => (.ok ((l : Int) - 1), derase p0 d1, true)
              | .error e => (.error e, d1, dirt)
    else (.error .typeError, d, false)

/-- `gitshelve.__delitem__`: run `prune_tree` on the split path,
re-raising `KeyError` as `KeyError(path)`. -/
def delItem (p : String) (g : GS) : Except Err Unit × GS :=
  match pruneTree (pathSplit p) g.objects with
  | (.ok _, objects1, dirt) => (.ok (), { g with objects := objects1, dirty := g.dirty || dirt })
  | (.error (.keyError _), objects1, dirt) =>
    (.error (.keyError p), { g with objects := objects1, dirty := g.dirty || dirt })
  | (.error e, objects1, dirt) => (.error e, { g with objects := objects1, dirty := g.dirty || dirt })

/-- Finalization of `make_tree`: if the cached root survived, return it
unchanged without writing; otherwise `git mktree` the entry buffer, cache
the new hash under `__root__` and return it.  A surviving root that is not
a string is malformed. -/
def mtFinish (g : GS) (es : Obj) (root : Option Obj) (buf : String) :
    Except Err String × Obj × GS :=
  match root with
  | none =>
    let name := hashTree buf
    (.ok name, dinsert "__root__" (.str name) es, { g with trees := alSet name buf g.trees })
  | some (.str h) => (.ok h, es, g)
  | some _ => (.error .typeError, es, g)

/-- The entry loop of `make_tree`: walk the dictionary entries in order,
skipping `__root__`; a leaf (`len == 1 and '__book__' in obj`) with a
dirty book is written as a blob (clearing its dirty flag and invalidating
the root); a sub-dictionary is materialized recursively and invalidates
the root when its returned hash differs from its previously cached one.
Returns the rewritten entries, the surviving root, the `mktree` buffer,
and the updated store. -/
def mtLoop (g : GS) (root : Option Obj) : Obj → Except Err Unit × Obj × Option Obj × String × GS
  | .dnil => (.ok (), .dnil, root, "", g)
  | .dcons path v rest =>
    if path = "__root__" then
      match mtLoop g root rest with
      | (r, rest1, root1, buf, g1) => (r, .dcons path v rest1, root1, buf, g1)
    else
      if isDict v then
        if isLeaf v then
          match dlookup "__book__" v with
          | some (.book b) =>
            let (v1, root1, g1, bname) :=
              if b.dirty then
                let name := hashBlob (bookData b)
                (dinsert "__book__" (.book { b with name := some name, dirty := false }) v,
                 (none : Option Obj),
                 { g with blobs := alSet name (bookData b) g.blobs },
                 name)
              else (v, root, g, optStr b.name)
            let frag := "100644 blob " ++ bname ++ "\t" ++ path ++ "\x00"
            match mtLoop g1 root1 rest with
            | (r, rest1, root2, buf, g2) => (r, .dcons path v1 rest1, root2, frag ++ buf, g2)
          | _ => (.error .typeError, .dcons path v rest, root, "", g)
        else
          let treeRoot := dlookup "__root__" v
          match mtLoop g treeRoot v with
          | (.error e, v1, _, _, g1) => (.error e, .dcons path v1 rest, root, "", g1)
          | (.ok (), v1, vroot, vbuf, g1) =>
            match mtFinish g1 v1 vroot vbuf with
            | (.error e, v2, g2) => (.error e, .dcons path v2 rest, root, "", g2)
            | (.ok treeName, v2, g2) =>
              let root1 := if treeRoot = some (.str treeName) then root else none
              let frag := "040000 tree " ++ treeName ++ "\t" ++ path ++ "\x00"
              match mtLoop g2 root1 rest with
              | (r, rest1, root2, buf, g3) => (r, .dcons path v2 rest1, root2, frag ++ buf, g3)
      else (.error .typeError, .dcons path v rest, root, "", g)
  | d => (.ok (), d, root, "", g)

/-- `gitshelve.make_tree`: materialize a dictionary into a persisted tree
hash, starting from its cached `__root__` and invalidating it when any
child changed. -/
def makeTree (g : GS) (objects : Obj) : Except Err String × Obj × GS :=
  match mtLoop g (dlookup "__root__" objects) objects with
  | (.ok (), es, root, buf, g1) => mtFinish g1 es root buf
  | (.error e, es, _, _, g1) => (.error e, es, g1)

/-- `gitshelve.update_head`: advance the branch ref, passing the expected
previous value when a head is known (`git update-ref branch new old`); the
update fails when the persisted ref does not match, and only on success is
the in-memory head moved. -/
def updateHead (g : GS) (newHead : String) : Except Err Unit × GS :=
  match g.head with
  | some old =>
    if g.refs.lookup g.branch = some old then
      (.ok (), { g with refs := alSet g.branch newHead g.refs, head := some newHead })
    else (.error .gitError, g)
  | none => (.ok (), { g with refs := alSet g.branch newHead g.refs, head := some newHead })

/-- The commit message after `if not comment: comment = ""`. -/
def optMsg : Option String → String
  | some c => c
  | none => ""

/-- `gitshelve.make_commit`: build a commit from the tree (with the
current head as sole parent exactly when a head exists and history is
kept), then advance the branch ref.  The commit object is written before
the ref update, so it persists even when the update fails. -/
def makeCommit (g : GS) (treeName : String) (comment : Option String) :
    Except Err String × GS :=
  let msg := optMsg comment
  let parent := if g.keepHistory then g.head else none
  let name := hashCommit treeName parent msg
  let g1 := { g with commits := alSet name (CommitObj.mk treeName parent msg) g.commits }
  match updateHead g1 name with
  | (.ok (), g2) => (.ok name, g2)
  | (.error e, g2) => (.error e, g2)

/-- `gitshelve.commit`: a no-op returning the unchanged head when the
shelf is not dirty; otherwise materialize the tree, build the commit, and
clear the dirty flag only after everything succeeded. -/
def commitShelf (g : GS) (comment : Option String) : Except Err (Option String) × GS :=
  if g.dirty = false then (.ok g.head, g)
  else
    match makeTree g g.objects with
    | (.ok tree, objects1, g1) =>
      let g2 := { g1 with objects := objects1 }
      match makeCommit g2 tree comment with
      | (.ok name, g3) => (.ok (some name), { g3 with dirty := false })
      | (.error e, g3) => (.error e, g3)
    | (.error e, objects1, g1) => (.error e, { g1 with objects := objects1 })

/-- `gitshelve.sync` (`self.commit()`). -/
def syncShelf (g : GS) : Except Err (Option String) × GS := commitShelf g none

/-- The node replacement `put` performs at the shard path:
`d.clear(); d['__book__'] = book` (an `AttributeError`, modelled as
`TypeError`, on a non-dictionary). -/
def putAt (b : Book) (d : Obj) : Except Err (Obj × Unit) :=
  if isDict d then .ok (.dcons "__book__" (.book b) .dnil, ()) else .error .typeError

/-- `gitshelve.put`: write the data as a blob, then store a clean book for
it under the 2-character hash-prefix shard path `name[:2] + '/' + name[2:]`,
clearing whatever the shard node previously held, and return the hash. -/
def putData (data : String) (g : GS) : Except Err String × GS :=
  let name := hashBlob data
  let g1 := { g with blobs := alSet name data g.blobs }
  let path := name.take 2 ++ "/" ++ name.drop 2
  let b : Book := Book.mk path (some name) (some data) false
  match modPath (putAt b) true (pathSplit path) g1.objects with
  | .ok (objects1, ()) => (.ok name, { g1 with objects := objects1, dirty := true })
  | .error e => (.error e, g1)

/-- `gitshelve.get`: recompute the shard path from the hash key, resolve
it (re-raising `KeyError` as `KeyError(key)`; an empty or non-leaf node is
also `KeyError`), and return the book data.  The per-node behaviour is
exactly that of `__getitem__` with the hash key in the error. -/
def getByHash (key : String) (g : GS) : Except Err String × GS :=
  let path := key.take 2 ++ "/" ++ key.drop 2
  match modPath (getItemAt g key) false (pathSplit path) g.objects with
  | .ok (objects1, s) => (.ok s, { g with objects := objects1 })
  | .error (.keyError _) => (.error (.keyError key), g)
  | .error e => (.error e, g)

/-- `gitshelve.walker` with `kind='keys'`: depth-first traversal yielding
the slash-joined key of every leaf, skipping the `__root__` sentinel at
every level; a non-dictionary value under any other key raises
`TypeError`. -/
def walkerKeys (path : String) : Obj → Except Err (List String)
  | .dnil => .ok []
  | .dcons k v rest =>
    if k = "__root__" then walkerKeys path rest
    else
      if isDict v then
        let key := if path = "" then k else path ++ "/" ++ k
        if isLeaf v then
          match walkerKeys path rest with
          | .ok l => .ok (key :: l)
          | .error e => .error e
        else
          match walkerKeys key v with
          | .ok sub =>
            match walkerKeys path rest with
            | .ok l => .ok (sub ++ l)
            | .error e => .error e
          | .error e => .error e
      else .error .typeError
  | _ => .error .typeError

/-! ### Spec-side definitions for the refinement claim about `make_tree`

`scratchBuf`/`scratchHash` rebuild the entire hierarchy from scratch,
ignoring every cached `__root__` value, following the specification's
description of tree identity as a pure function of the entry set. -/

/-- Spec-side scratch rebuild of a directory's `mktree` entry buffer,
using no cached root values: a dirty leaf contributes the hash its data
would be written under, a clean leaf its recorded hash, and a
sub-directory its recursively rebuilt tree hash. -/
def scratchBuf : Obj → String
  | .dnil => ""
  | .dcons path v rest =>
    (if path = "__root__" then ""
     else if isLeaf v then
       match dlookup "__book__" v with
       | some (.book b) =>
         "100644 blob " ++
           (if b.dirty then hashBlob (bookData b) else optStr b.name) ++
           "\t" ++ path ++ "\x00"
       | _ => ""
     else "040000 tree " ++ hashTree (scratchBuf v) ++ "\t" ++ path ++ "\x00")
    ++ scratchBuf rest
  | _ => ""

/-- Spec-side scratch rebuild of a directory's root hash. -/
def scratchHash (d : Obj) : String := hashTree (scratchBuf d)

/-- Whether none of a directory's entries would invalidate its cached
root in `make_tree`: every leaf book is clean, and every sub-directory's
cached root equals the hash its materialization returns (its scratch
hash). -/
def survives : Obj → Bool
  | .dcons path v rest =>
    (if path = "__root__" then true
     else if isLeaf v then
       match dlookup "__book__" v with
       | some (.book b) => !b.dirty
       | _ => false
     else dlookup "__root__" v == some (.str (scratchHash v)))
    && survives rest
  | _ => true

/-- Validity of one directory's own cached root: if present it is a
string, and if the directory's entries would let it survive then it equals
the scratch hash. -/
def rootOK (n : Obj) : Bool :=
  match dlookup "__root__" n with
  | some (.str r) => !survives n || r == scratchHash n
  | some _ => false
  | none => true

/-- Validity of every cached root strictly below a directory. -/
def cacheOK : Obj → Bool
  | .dcons path v rest =>
    (if path = "__root__" then true
     else if isLeaf v then true
     else rootOK v && cacheOK v) && cacheOK rest
  | _ => true

/-- Structural wellformedness of a directory as `make_tree` requires it:
every non-`__root__` entry is a dictionary, and every leaf wraps an actual
book. -/
def wfE : Obj → Bool
  | .dnil => true
  | .dcons path v rest =>
    (if path = "__root__" then true
     else if isLeaf v then
       match dlookup "__book__" v with
       | some (.book _) => true
       | _ => false
     else isDict v && wfE v)
    && wfE rest
  | _ => false

/-- A fully clean, fully cached hierarchy: every leaf book is clean and
every sub-directory carries a (string) cached root, recursively.  On such
a hierarchy `make_tree` performs no write at all. -/
def fullyClean : Obj → Bool
  | .dnil => true
  | .dcons path v rest =>
    (if path = "__root__" then true
     else if isLeaf v then
       match dlookup "__book__" v with
       | some (.book b) => !b.dirty
       | _ => false
     else (match dlookup "__root__" v with
           | some (.str _) => true
           | _ => false) && fullyClean v)
    && fullyClean rest
  | _ => false

/-- Proper-dictionary wellformedness: every dictionary spine is a proper
`dcons`/`dnil` spine with pairwise-distinct keys, recursively in the
values. -/
def wfSpine : Obj → Bool
  | .dnil => true
  | .dcons k v rest => isDict rest && !(dmem k rest) && wfSpine v && wfSpine rest
  | _ => true

/-! ### Dictionary lemmas -/

namespace Obj

@[simp] theorem dlookup_dinsert_self (k : String) (v : Obj) :
    ∀ d, dlookup k (dinsert k v d) = some v := by
  intro d
  induction d with
  | dnil => simp [dinsert, dlookup]
  | dcons k1 v1 rest ih1 ih2 =>
    by_cases h : k1 = k
    · simp [dinsert, h, dlookup]
    · simp [dinsert, h, dlookup, ih2]
  | book b => simp [dinsert, dlookup]
  | str s => simp [dinsert, dlookup]

theorem dlookup_dinsert_ne {k1 k : String} (v : Obj) (h : k1 ≠ k) :
    ∀ d, dlookup k1 (dinsert k v d) = dlookup k1 d := by
  intro d
  induction d with
  | dnil => simp [dinsert, dlookup, Ne.symm h]
  | dcons k2 v2 rest ih1 ih2 =>
    by_cases h2 : k2 = k
    · subst h2; simp [dinsert, dlookup, Ne.symm h]
    · simp [dinsert, h2, dlookup, ih2]
  | book b => simp [dinsert, dlookup, Ne.symm h]
  | str s => simp [dinsert, dlookup, Ne.symm h]

theorem dinsert_eq_self {k : String} {v : Obj} :
    ∀ {d}, dlookup k d = some v → dinsert k v d = d := by
  intro d
  induction d with
  | dnil => intro h; simp [dlookup] at h
  | dcons k1 v1 rest ih1 ih2 =>
    intro h
    by_cases h1 : k1 = k
    · subst h1; simp [dlookup] at h; simp [dinsert, h]
    · simp [dlookup, h1] at h; simp [dinsert, h1, ih2 h]
  | book b => intro h; simp [dlookup] at h
  | str s => intro h; simp [dlookup] at h

@[simp] theorem isDict_dinsert (k : String) (v d : Obj) :
    isDict (dinsert k v d) = true := by
  cases d with
  | dcons k1 v1 rest => by_cases h : k1 = k <;> simp [dinsert, h, isDict]
  | dnil => simp [dinsert, isDict]
  | book b => simp [dinsert, isDict]
  | str s => simp [dinsert, isDict]

theorem dlookup_derase_ne {k1 k : String} (h : k1 ≠ k) :
    ∀ d, dlookup k1 (derase k d) = dlookup k1 d := by
  intro d
  induction d with
  | dnil => simp [derase]
  | dcons k2 v2 rest ih1 ih2 =>
    by_cases h2 : k2 = k
    · subst h2; simp [derase, dlookup, Ne.symm h]
    · simp [derase, h2, dlookup, ih2]
  | book b => simp [derase]
  | str s => simp [derase]

end Obj

/-! ### Path-walk lemmas -/

/-- After a successful mutating walk, a second read-only walk over the
result reaches the node the transformer produced, provided the transformer
pins down a relation `fg` on its output. -/
theorem modPath_preserve {α β : Type} {f : Obj → Except Err (Obj × α)}
    {fg : Obj → Except Err (Obj × β)} {r : β}
    (hpost : ∀ x x1 a, f x = .ok (x1, a) → fg x1 = .ok (x1, r)) :
    ∀ (parts : List String) (d d1 : Obj) (a : α),
      modPath f true parts d = .ok (d1, a) → modPath fg false parts d1 = .ok (d1, r) := by
  intro parts
  induction parts with
  | nil =>
    intro d d1 a h
    simp only [modPath] at h ⊢
    exact hpost d d1 a h
  | cons part ps ih =>
    intro d d1 a h
    simp only [modPath] at h
    split at h
    case isTrue hd =>
      cases hl : dlookup part d with
      | some x =>
        simp only [hl] at h
        cases hr : modPath f true ps x with
        | ok pr =>
          obtain ⟨x1, a1⟩ := pr
          simp only [hr] at h
          cases h
          simp [modPath, ih x x1 a hr,
            Obj.dinsert_eq_self (Obj.dlookup_dinsert_self part x1 d)]
        | error e => simp only [hr] at h; exact absurd h (by simp)
      | none =>
        simp only [hl] at h
        simp only [if_true] at h
        cases hr : modPath f true ps .dnil with
        | ok pr =>
          obtain ⟨x1, a1⟩ := pr
          simp only [hr] at h
          cases h
          simp [modPath, ih .dnil x1 a hr,
            Obj.dinsert_eq_self (Obj.dlookup_dinsert_self part x1 d)]
        | error e => simp only [hr] at h; exact absurd h (by simp)
    case isFalse hd => exact absurd h (by simp)

/-- After a successful mutating walk, the read-only path resolution
reaches the fixed node produced by the transformer. -/
theorem lookupPath_after_modPath {α : Type} {f : Obj → Except Err (Obj × α)} {leafC : Obj}
    (hpost : ∀ x x1 a, f x = .ok (x1, a) → x1 = leafC) :
    ∀ (parts : List String) (d d1 : Obj) (a : α),
      modPath f true parts d = .ok (d1, a) → lookupPath parts d1 = .ok leafC := by
  intro parts
  induction parts with
  | nil =>
    intro d d1 a h
    simp only [modPath] at h
    simp only [lookupPath]
    rw [hpost d d1 a h]
  | cons part ps ih =>
    intro d d1 a h
    simp only [modPath] at h
    split at h
    case isTrue hd =>
      cases hl : dlookup part d with
      | some x =>
        simp only [hl] at h
        cases hr : modPath f true ps x with
        | ok pr =>
          obtain ⟨x1, a1⟩ := pr
          simp only [hr] at h
          cases h
          simp [lookupPath, ih x x1 a hr]
        | error e => simp only [hr] at h; exact absurd h (by simp)
      | none =>
        simp only [hl] at h
        simp only [if_true] at h
        cases hr : modPath f true ps .dnil with
        | ok pr =>
          obtain ⟨x1, a1⟩ := pr
          simp only [hr] at h
          cases h
          simp [lookupPath, ih .dnil x1 a hr]
        | error e => simp only [hr] at h; exact absurd h (by simp)
    case isFalse hd => exact absurd h (by simp)

/-- A second mutating walk over the result of a successful one succeeds,
when the first transformer only produces dictionaries and the second
accepts every dictionary. -/
theorem modPath_again {α β : Type} {f : Obj → Except Err (Obj × α)}
    {f2 : Obj → Except Err (Obj × β)}
    (hfdict : ∀ x x1 a, f x = .ok (x1, a) → isDict x1 = true)
    (hf2 : ∀ x, isDict x = true → ∃ y b, f2 x = .ok (y, b)) :
    ∀ (parts : List String) (d d1 : Obj) (a : α),
      modPath f true parts d = .ok (d1, a) →
      ∃ d2 b, modPath f2 true parts d1 = .ok (d2, b) := by
  intro parts
  induction parts with
  | nil =>
    intro d d1 a h
    simp only [modPath] at h ⊢
    exact hf2 d1 (hfdict d d1 a h)
  | cons part ps ih =>
    intro d d1 a h
    simp only [modPath] at h
    split at h
    case isTrue hd =>
      cases hl : dlookup part d with
      | some x =>
        simp only [hl] at h
        cases hr : modPath f true ps x with
        | ok pr =>
          obtain ⟨x1, a1⟩ := pr
          simp only [hr] at h
          cases h
          obtain ⟨d2, b, hb⟩ := ih x x1 a hr
          exact ⟨dinsert part d2 (dinsert part x1 d), b, by simp [modPath, hb]⟩
        | error e => simp only [hr] at h; exact absurd h (by simp)
      | none =>
        simp only [hl] at h
        simp only [if_true] at h
        cases hr : modPath f true ps .dnil with
        | ok pr =>
          obtain ⟨x1, a1⟩ := pr
          simp only [hr] at h
          cases h
          obtain ⟨d2, b, hb⟩ := ih .dnil x1 a hr
          exact ⟨dinsert part d2 (dinsert part x1 d), b, by simp [modPath, hb]⟩
        | error e => simp only [hr] at h; exact absurd h (by simp)
    case isFalse hd => exact absurd h (by simp)

/-! ### Claim C1: set then get -/

/-- After `__setitem__` transformed the final node, that node is a
dictionary whose `__book__` book caches exactly the written data. -/
theorem setItemAt_post {p v : String} {d d1 : Obj} {a : Unit}
    (h : setItemAt p v d = .ok (d1, a)) :
    isDict d1 = true ∧ ∃ b, dlookup "__book__" d1 = some (.book b) ∧ b.data = some v := by
  unfold setItemAt at h
  split at h
  case isTrue hd =>
    cases hb : dlookup "__book__" d with
    | some x =>
      cases x with
      | book b =>
        simp only [hb] at h
        cases h
        refine ⟨by simp, setData b v, by simp, ?_⟩
        unfold setData
        by_cases hbd : b.data = some v <;> simp [hbd]
      | dnil => simp only [hb] at h; simp at h
      | dcons k xv xr => simp only [hb] at h; simp at h
      | str s2 => simp only [hb] at h; simp at h
    | none =>
      simp only [hb] at h
      cases h
      refine ⟨by simp [isDict], setData (Book.mk p none none false) v, by simp [dlookup], ?_⟩
      unfold setData
      simp
  case isFalse hd => simp at h

/-- `__getitem__` at a node whose book already caches data `v` returns
`v` and leaves the node unchanged. -/
theorem getItemAt_ready {g : GS} {p v : String} {d : Obj} {b : Book}
    (hd : isDict d = true) (hb : dlookup "__book__" d = some (.book b))
    (hdata : b.data = some v) :
    getItemAt g p d = .ok (d, v) := by
  unfold getItemAt
  simp only [hd, if_true, hb, getData, hdata, Obj.dinsert_eq_self hb]

/-- The empty shelf on a fresh branch of an empty repository. -/
def gEmpty : GS :=
  { branch := "master", keepHistory := true, head := none, dirty := false,
    objects := .dnil, blobs := [], trees := [], commits := [], refs := [] }

/-- Claim C1: for every path `p` and every value `v`, whenever
`set(p, v)` (`__setitem__`) succeeds on a store, `get(p)`
(`__getitem__`) on the resulting store returns `v`. -/
theorem setItem_then_getItem (g : GS) (p v : String)
    (h : (setItem p v g).1 = .ok ()) :
    (getItem p (setItem p v g).2).1 = .ok v := by
  unfold setItem at h ⊢
  cases hm : modPath (setItemAt p v) true (pathSplit p) g.objects with
  | error e => rw [hm] at h; simp at h
  | ok pr =>
    obtain ⟨objects1, u⟩ := pr
    cases u
    have hpost : ∀ x x1 (a : Unit), setItemAt p v x = .ok (x1, a) →
        getItemAt { g with objects := objects1, dirty := true } p x1 = .ok (x1, v) := by
      intro x x1 a hx
      obtain ⟨hdict, b, hb, hdata⟩ := setItemAt_post hx
      exact getItemAt_ready hdict hb hdata
    have hget := modPath_preserve hpost (pathSplit p) g.objects objects1 () hm
    simp only [hm, getItem, hget]

/-- Concrete run of claim C1 on the empty shelf. -/
theorem setItem_then_getItem_witness :
    (setItem "foo/bar" "hello" gEmpty).1 = .ok () ∧
    (getItem "foo/bar" (setItem "foo/bar" "hello" gEmpty).2).1 = .ok "hello" :=
  ⟨rfl, setItem_then_getItem gEmpty "foo/bar" "hello" rfl⟩

/-! ### Frame lemmas for the materializer and commit machinery -/

/-- `update_head` leaves the state untouched when the ref update fails. -/
theorem updateHead_error {g : GS} {n : String} {e : Err} {g1 : GS}
    (h : updateHead g n = (.error e, g1)) : g1 = g := by
  unfold updateHead at h
  cases hh : g.head with
  | some old =>
    simp only [hh] at h
    by_cases hc : g.refs.lookup g.branch = some old
    · rw [if_pos hc] at h; cases h
    · rw [if_neg hc] at h; cases h; rfl
  | none => simp only [hh] at h; cases h

/-- `update_head` on success moves the in-memory head to the new value
and touches nothing besides the refs. -/
theorem updateHead_ok {g : GS} {n : String} {g1 : GS}
    (h : updateHead g n = (.ok (), g1)) :
    g1 = { g with refs := alSet g.branch n g.refs, head := some n } := by
  unfold updateHead at h
  cases hh : g.head with
  | some old =>
    simp only [hh] at h
    by_cases hc : g.refs.lookup g.branch = some old
    · rw [if_pos hc] at h; cases h; rfl
    · rw [if_neg hc] at h; cases h
  | none => simp only [hh] at h; cases h; rfl

/-- `mtFinish` only ever adds a tree object to the store. -/
theorem mtFinish_state (g : GS) (es : Obj) (root : Option Obj) (buf : String) :
    ∃ tr, ((mtFinish g es root buf).2.2) = { g with trees := tr } := by
  unfold mtFinish
  cases root with
  | none => exact ⟨_, rfl⟩
  | some r => cases r <;> exact ⟨g.trees, by simp⟩

/-- The `make_tree` entry loop only ever adds blob and tree objects to
the store: head, dirty flag, refs, commits, the branch configuration and
the `objects` field are untouched. -/
theorem mtLoop_state : ∀ (d : Obj) (g : GS) (root : Option Obj),
    ∃ bl tr, ((mtLoop g root d).2.2.2.2) = { g with blobs := bl, trees := tr } := by
  intro d
  induction d with
  | dnil => intro g root; exact ⟨g.blobs, g.trees, by simp [mtLoop]⟩
  | dcons path v rest ih1 ih2 =>
    intro g root
    unfold mtLoop
    split
    case isTrue hp =>
      obtain ⟨bl, tr, hrec⟩ := ih2 g root
      obtain ⟨r, rest1, root1, buf, g1, hm⟩ : ∃ r rest1 root1 buf g1,
          mtLoop g root rest = (r, rest1, root1, buf, g1) :=
        ⟨_, _, _, _, _, rfl⟩
      simp only [hm] at hrec ⊢
      exact ⟨bl, tr, hrec⟩
    case isFalse hp =>
      split
      case isFalse hdict => exact ⟨g.blobs, g.trees, by simp⟩
      case isTrue hdict =>
        split
        case isTrue hleaf =>
          cases hb : dlookup "__book__" v with
          | some x =>
            cases x with
            | book b =>
              by_cases hdirty : b.dirty = true
              · obtain ⟨bl, tr, hrec⟩ := ih2
                  { g with blobs := alSet (hashBlob (bookData b)) (bookData b) g.blobs } none
                obtain ⟨r, rest1, root1, buf, g1, hm⟩ : ∃ r rest1 root1 buf g1,
                    mtLoop { g with blobs := alSet (hashBlob (bookData b)) (bookData b) g.blobs }
                      none rest = (r, rest1, root1, buf, g1) :=
                  ⟨_, _, _, _, _, rfl⟩
                simp only [hb, hdirty, if_true, hm] at hrec ⊢
                exact ⟨bl, tr, by simp [hrec]⟩
              · simp only [Bool.not_eq_true] at hdirty
                obtain ⟨bl, tr, hrec⟩ := ih2 g root
                obtain ⟨r, rest1, root1, buf, g1, hm⟩ : ∃ r rest1 root1 buf g1,
                    mtLoop g root rest = (r, rest1, root1, buf, g1) :=
                  ⟨_, _, _, _, _, rfl⟩
                simp only [hb, hdirty, Bool.false_eq_true, if_false, hm] at hrec ⊢
                exact ⟨bl, tr, hrec⟩
            | dnil => simp only [hb]; exact ⟨g.blobs, g.trees, by simp⟩
            | dcons k2 v2 r2 => simp only [hb]; exact ⟨g.blobs, g.trees, by simp⟩
            | str s2 => simp only [hb]; exact ⟨g.blobs, g.trees, by simp⟩
          | none => simp only [hb]; exact ⟨g.blobs, g.trees, by simp⟩
        case isFalse hleaf =>
          obtain ⟨blv, trv, hv⟩ := ih1 g (dlookup "__root__" v)
          obtain ⟨rv, v1, vroot, vbuf, gv, hmv⟩ : ∃ rv v1 vroot vbuf gv,
              mtLoop g (dlookup "__root__" v) v = (rv, v1, vroot, vbuf, gv) :=
            ⟨_, _, _, _, _, rfl⟩
          simp only [hmv] at hv ⊢
          cases rv with
          | error e => exact ⟨blv, trv, hv⟩
          | ok u =>
            cases u
            obtain ⟨trf, hf⟩ := mtFinish_state gv v1 vroot vbuf
            obtain ⟨rf, v2, gf, hmf⟩ : ∃ rf v2 gf, mtFinish gv v1 vroot vbuf = (rf, v2, gf) :=
              ⟨_, _, _, rfl⟩
            simp only [hmf] at hf ⊢
            cases rf with
            | error e => exact ⟨blv, trf, by rw [hf, hv]⟩
            | ok treeName =>
              obtain ⟨bl, tr, hrec⟩ := ih2 gf
                (if dlookup "__root__" v = some (.str treeName) then root else none)
              obtain ⟨r, rest1, root1, buf, g1, hm⟩ : ∃ r rest1 root1 buf g1,
                  mtLoop gf (if dlookup "__root__" v = some (.str treeName) then root else none)
                    rest = (r, rest1, root1, buf, g1) :=
                ⟨_, _, _, _, _, rfl⟩
              simp only [hm] at hrec ⊢
              exact ⟨bl, tr, by rw [hrec, hf, hv]⟩
  | book b => intro g root; exact ⟨g.blobs, g.trees, by simp [mtLoop]⟩
  | str s => intro g root; exact ⟨g.blobs, g.trees, by simp [mtLoop]⟩

/-- `make_tree` only ever adds blob and tree objects to the store. -/
theorem makeTree_state (g : GS) (o : Obj) :
    ∃ bl tr, ((makeTree g o).2.2) = { g with blobs := bl, trees := tr } := by
  unfold makeTree
  obtain ⟨bl, tr, hl⟩ := mtLoop_state o g (dlookup "__root__" o)
  obtain ⟨r, es, root, buf, g1, hm⟩ : ∃ r es root buf g1,
      mtLoop g (dlookup "__root__" o) o = (r, es, root, buf, g1) :=
    ⟨_, _, _, _, _, rfl⟩
  simp only [hm] at hl ⊢
  cases r with
  | error e => exact ⟨bl, tr, hl⟩
  | ok u =>
    cases u
    obtain ⟨trf, hf⟩ := mtFinish_state g1 es root buf
    exact ⟨bl, trf, by rw [hf, hl]⟩

/-- Lookup after update-or-append finds the new binding. -/
theorem lookup_alSet_self {β : Type} (k : String) (v : β) :
    ∀ l : List (String × β), List.lookup k (alSet k v l) = some v := by
  intro l
  induction l with
  | nil => simp [alSet, List.lookup]
  | cons kv rest ih =>
    obtain ⟨k1, v1⟩ := kv
    by_cases h : k1 = k
    · subst h; simp [alSet, List.lookup]
    · have hbeq : (k == k1) = false := beq_eq_false_iff_ne.mpr (Ne.symm h)
      simp [alSet, h, List.lookup, hbeq, ih]

/-- `update_head` never changes the commit store. -/
theorem updateHead_commits (g : GS) (n : String) :
    ((updateHead g n).2).commits = g.commits := by
  obtain ⟨r, g2, hu⟩ : ∃ r g2, updateHead g n = (r, g2) := ⟨_, _, rfl⟩
  rw [hu]
  cases r with
  | ok u => cases u; rw [updateHead_ok hu]
  | error e => rw [updateHead_error hu]

/-- `update_head` never changes the commit store, stated for an already
destructured call. -/
theorem updateHead_any_commits {gA : GS} {nm : String} {r : Except Err Unit} {g2 : GS}
    (hu : updateHead gA nm = (r, g2)) : g2.commits = gA.commits := by
  have h2 := updateHead_commits gA nm
  rw [hu] at h2
  exact h2

/-- The state after `make_commit` holds the newly built commit object,
whatever the ref update did. -/
theorem makeCommit_commits (g : GS) (t : String) (c : Option String) :
    ((makeCommit g t c).2).commits =
      alSet (hashCommit t (if g.keepHistory then g.head else none) (optMsg c))
        (CommitObj.mk t (if g.keepHistory then g.head else none) (optMsg c)) g.commits := by
  simp only [makeCommit]
  split
  next g2 hu => rw [updateHead_any_commits hu]
  next e g2 hu => rw [updateHead_any_commits hu]

/-- A successful `make_commit` moves the head to the new commit and keeps
the dirty flag. -/
theorem makeCommit_ok_head {g : GS} {t : String} {c : Option String} {n : String} {g1 : GS}
    (h : makeCommit g t c = (.ok n, g1)) : g1.head = some n ∧ g1.dirty = g.dirty := by
  simp only [makeCommit] at h
  split at h
  next g2 hu =>
    cases h
    rw [updateHead_ok hu]
    exact ⟨rfl, rfl⟩
  next e g2 hu => cases h

/-- A failed `make_commit` (the ref update failed) keeps head, dirty
flag and refs exactly as they were. -/
theorem makeCommit_error_state {g : GS} {t : String} {c : Option String} {e : Err} {g1 : GS}
    (h : makeCommit g t c = (.error e, g1)) :
    g1.head = g.head ∧ g1.dirty = g.dirty ∧ g1.refs = g.refs := by
  simp only [makeCommit] at h
  split at h
  next g2 hu => cases h
  next e2 g2 hu =>
    cases h
    rw [updateHead_error hu]
    exact ⟨rfl, rfl, rfl⟩

/-! ### Claim C3: commit idempotence and the clean no-op -/

/-- Claim C3: committing twice with no intervening mutation returns the
identical hash on both calls and the second call changes nothing; and on a
shelf whose global dirty flag is unset, `commit` is a complete no-op on
the state (so it performs no object-store writes) and returns the
unchanged head. -/
theorem commit_idempotent :
    (∀ (g : GS) (c c2 : Option String) (h : Option String) (g1 : GS),
        commitShelf g c = (.ok h, g1) → commitShelf g1 c2 = (.ok h, g1)) ∧
    (∀ (g : GS) (c : Option String), g.dirty = false →
        commitShelf g c = (.ok g.head, g)) := by
  have noop : ∀ (g : GS) (c : Option String), g.dirty = false →
      commitShelf g c = (.ok g.head, g) := by
    intro g c h
    unfold commitShelf
    rw [if_pos h]
  refine ⟨?_, noop⟩
  intro g c c2 h g1 hc
  unfold commitShelf at hc
  by_cases hd : g.dirty = false
  · rw [if_pos hd] at hc
    cases hc
    exact noop g c2 hd
  · rw [if_neg hd] at hc
    obtain ⟨rt, objects1, gA, hmt⟩ : ∃ rt objects1 gA,
        makeTree g g.objects = (rt, objects1, gA) := ⟨_, _, _, rfl⟩
    simp only [hmt] at hc
    cases rt with
    | error e => cases hc
    | ok tree =>
      obtain ⟨rc, g3, hmc⟩ : ∃ rc g3,
          makeCommit { gA with objects := objects1 } tree c = (rc, g3) := ⟨_, _, rfl⟩
      simp only [hmc] at hc
      cases rc with
      | error e => cases hc
      | ok name =>
        cases hc
        obtain ⟨hhead, hdirty⟩ := makeCommit_ok_head hmc
        have : ({ g3 with dirty := false } : GS).dirty = false := rfl
        rw [noop { g3 with dirty := false } c2 this]
        simp [hhead]

/-- Concrete run of claim C3: the shelf is synced once after a write and
then synced again; both syncs return the same commit hash. -/
theorem commit_idempotent_witness :
    commitShelf ((commitShelf ((setItem "a" "x" gEmpty).2) none).2) none =
      (.ok (some "CT100644 blob Bx\ta\x00,,"),
        (commitShelf ((setItem "a" "x" gEmpty).2) none).2) :=
  commit_idempotent.1 ((setItem "a" "x" gEmpty).2) none none
    (some "CT100644 blob Bx\ta\x00,,") ((commitShelf ((setItem "a" "x" gEmpty).2) none).2) rfl

/-! ### Claim C9: commit parentage -/

/-- Claim C9: the commit object built by `make_commit` has the previous
head as its sole parent exactly when a head exists and history retention
is on; with history retention off or no previous head it is a parentless
root commit. -/
theorem makeCommit_parent :
    (∀ (g : GS) (t : String) (c : Option String) (hd : String),
        g.head = some hd → g.keepHistory = true →
        ((makeCommit g t c).2).commits.lookup (hashCommit t (some hd) (optMsg c)) =
          some (CommitObj.mk t (some hd) (optMsg c))) ∧
    (∀ (g : GS) (t : String) (c : Option String),
        g.keepHistory = false ∨ g.head = none →
        ((makeCommit g t c).2).commits.lookup (hashCommit t none (optMsg c)) =
          some (CommitObj.mk t none (optMsg c))) := by
  constructor
  · intro g t c hd hh hk
    rw [makeCommit_commits, hk, if_pos rfl, hh]
    exact lookup_alSet_self _ _ _
  · intro g t c hcase
    rw [makeCommit_commits]
    rcases hcase with hk | hh
    · rw [hk]
      simp only [Bool.false_eq_true, if_false]
      exact lookup_alSet_self _ _ _
    · rw [hh]
      have : (if g.keepHistory then (none : Option String) else none) = none := by
        split <;> rfl
      rw [this]
      exact lookup_alSet_self _ _ _

/-- Concrete runs of claim C9: with a head and history the parent is the
head; with `keep_history=False` the commit is parentless. -/
theorem makeCommit_parent_witness :
    ((makeCommit { gEmpty with head := some "C0" } "T0" none).2).commits.lookup
        (hashCommit "T0" (some "C0") "") =
      some (CommitObj.mk "T0" (some "C0") "") ∧
    ((makeCommit { gEmpty with head := some "C0", keepHistory := false } "T0" none).2).commits.lookup
        (hashCommit "T0" none "") =
      some (CommitObj.mk "T0" none "") :=
  ⟨makeCommit_parent.1 { gEmpty with head := some "C0" } "T0" none "C0" rfl rfl,
   makeCommit_parent.2 { gEmpty with head := some "C0", keepHistory := false } "T0" none
     (Or.inl rfl)⟩

/-! ### Claim C6 (corrected): state after a failed commit -/

/-- Amended claim C6: a failing `commit` (in particular a failing branch
ref update) leaves head, global dirty flag and the branch refs exactly as
before the attempt, so the sync is safe to retry — but not the whole
in-memory state: the materializer has already rewritten book dirty flags
and cached hashes. -/
theorem commit_error_head_dirty :
    ∀ (g : GS) (c : Option String) (e : Err) (g1 : GS),
      commitShelf g c = (.error e, g1) →
      g1.head = g.head ∧ g1.dirty = g.dirty ∧ g1.refs = g.refs := by
  intro g c e g1 h
  unfold commitShelf at h
  by_cases hd : g.dirty = false
  · rw [if_pos hd] at h; cases h
  · rw [if_neg hd] at h
    obtain ⟨rt, objects1, gA, hmt⟩ : ∃ rt objects1 gA,
        makeTree g g.objects = (rt, objects1, gA) := ⟨_, _, _, rfl⟩
    obtain ⟨bl, tr, hstate⟩ := makeTree_state g g.objects
    simp only [hmt] at h hstate
    cases rt with
    | error e2 =>
      cases h
      rw [hstate]
      exact ⟨rfl, rfl, rfl⟩
    | ok tree =>
      obtain ⟨rc, g3, hmc⟩ : ∃ rc g3,
          makeCommit { gA with objects := objects1 } tree c = (rc, g3) := ⟨_, _, rfl⟩
      simp only [hmc] at h
      cases rc with
      | ok name => cases h
      | error e2 =>
        cases h
        obtain ⟨h1, h2, h3⟩ := makeCommit_error_state hmc
        rw [h1, h2, h3, hstate]
        exact ⟨rfl, rfl, rfl⟩

/-- A dirty shelf whose branch ref was moved concurrently (the persisted
ref no longer matches the in-memory head). -/
def gC6 : GS :=
  { branch := "master", keepHistory := true, head := some "H", dirty := true,
    objects := .dcons "a" (.dcons "__book__" (.book (Book.mk "a" none (some "x") true)) .dnil) .dnil,
    blobs := [], trees := [], commits := [], refs := [("master", "H2")] }

/-- Counterexample to claim C6 as stated: when the ref update fails, head
and the global dirty flag are indeed untouched, but the in-memory book
state is NOT left exactly as before the sync attempt — the book was
already written out and its dirty flag cleared by `make_tree`. -/
theorem commit_fail_books_mutated :
    (commitShelf gC6 none).1 = .error .gitError ∧
    (commitShelf gC6 none).2.head = gC6.head ∧
    (commitShelf gC6 none).2.dirty = true ∧
    (commitShelf gC6 none).2.objects ≠ gC6.objects := by
  refine ⟨rfl, rfl, rfl, ?_⟩
  decide

/-- Concrete run of the amended claim C6 on the moved-ref shelf. -/
theorem commit_error_head_dirty_witness :
    (commitShelf gC6 none).2.head = gC6.head ∧
    (commitShelf gC6 none).2.dirty = gC6.dirty ∧
    (commitShelf gC6 none).2.refs = gC6.refs :=
  commit_error_head_dirty gC6 none .gitError (commitShelf gC6 none).2 rfl

/-! ### Claim C4 (corrected): value-equal writes -/

/-- A mutating walk whose transformer fixes the resolved node leaves the
whole dictionary unchanged. -/
theorem modPath_of_lookup {α : Type} {f : Obj → Except Err (Obj × α)} {r : α} {final : Obj}
    (hf : f final = .ok (final, r)) :
    ∀ (parts : List String) (d : Obj),
      lookupPath parts d = .ok final → modPath f true parts d = .ok (d, r) := by
  intro parts
  induction parts with
  | nil =>
    intro d h
    simp only [lookupPath] at h
    cases h
    simpa [modPath] using hf
  | cons part ps ih =>
    intro d h
    simp only [lookupPath] at h
    split at h
    case isTrue hd =>
      cases hl : dlookup part d with
      | some x =>
        simp only [hl] at h
        simp only [modPath, hd, if_true, hl, ih x h, Obj.dinsert_eq_self hl]
      | none => simp only [hl] at h; cases h
    case isFalse hd => cases h

/-- Amended claim C4: setting a path to the value its book already caches
leaves the book untouched (`set_data` is a no-op, so no book dirty flag is
raised and the hierarchy — hence the root hash the next sync computes —
is unchanged), but the store's global dirty flag is raised all the same.
At the book level, `set_data` with the currently cached value changes
nothing. -/
theorem setItem_same_value (g : GS) (p v : String) (node : Obj) (b : Book)
    (hres : lookupPath (pathSplit p) g.objects = .ok node)
    (hdict : isDict node = true)
    (hb : dlookup "__book__" node = some (.book b))
    (hdata : b.data = some v) :
    setItem p v g = (.ok (), { g with dirty := true }) ∧ setData b v = b := by
  have hsd : setData b v = b := by
    unfold setData
    rw [hdata]
    simp
  have hf : setItemAt p v node = .ok (node, ()) := by
    unfold setItemAt
    rw [hdict, if_pos rfl]
    simp only [hb, hsd, Obj.dinsert_eq_self hb]
  have hm := modPath_of_lookup hf (pathSplit p) g.objects hres
  refine ⟨?_, hsd⟩
  unfold setItem
  rw [hm]

/-- A clean shelf holding the value `"x"` at path `"a"`, obtained by a
write followed by a sync. -/
def gC4 : GS := (commitShelf ((setItem "a" "x" gEmpty).2) none).2

/-- Counterexample to claim C4 as stated: on a clean shelf that already
holds `"x"` at `"a"`, `set("a", "x")` raises the store's global dirty
flag, because `__setitem__` sets `self.dirty = True` unconditionally. -/
theorem setItem_same_value_dirties :
    gC4.dirty = false ∧
    (getItem "a" gC4).1 = .ok "x" ∧
    (setItem "a" "x" gC4).1 = .ok () ∧
    (setItem "a" "x" gC4).2.dirty = true :=
  ⟨rfl, rfl, rfl, rfl⟩

/-- Concrete run of the amended claim C4. -/
theorem setItem_same_value_witness :
    setItem "a" "x" gC4 = (.ok (), { gC4 with dirty := true }) ∧
      setData (Book.mk "a" (some "Bx") (some "x") false) "x" =
        Book.mk "a" (some "Bx") (some "x") false :=
  setItem_same_value gC4 "a" "x"
    (.dcons "__book__" (.book (Book.mk "a" (some "Bx") (some "x") false)) .dnil)
    (Book.mk "a" (some "Bx") (some "x") false) rfl rfl rfl rfl

/-! ### Claim C8: content-hash mode -/

/-- The `put` replacement pins the node to the fresh one-book leaf. -/
theorem putAt_post {b : Book} {x x1 : Obj} {a : Unit} (h : putAt b x = .ok (x1, a)) :
    x1 = Obj.dcons "__book__" (.book b) .dnil := by
  unfold putAt at h
  by_cases hdx : isDict x = true
  · rw [if_pos hdx] at h; cases h; rfl
  · rw [if_neg hdx] at h; cases h

/-- The `put` replacement succeeds on every dictionary node. -/
theorem putAt_dict {b : Book} {x : Obj} (hdx : isDict x = true) :
    putAt b x = .ok (Obj.dcons "__book__" (.book b) .dnil, ()) := by
  unfold putAt
  rw [if_pos hdx]

/-- Claim C8: blob hashing is deterministic and collision-free (identical
bytes give the same hash, different bytes different hashes); a successful
`put(data)` returns the content hash, a second `put` of the same bytes
returns the same hash again, the content is stored under the 2-character
hash-prefix shard path, and `get` with the returned hash returns the
data. -/
theorem put_content_addressing :
    (∀ d1 d2 : String, d1 ≠ d2 → hashBlob d1 ≠ hashBlob d2) ∧
    (∀ (g : GS) (dta h : String) (g1 : GS),
        putData dta g = (.ok h, g1) →
        h = hashBlob dta ∧
        (putData dta g1).1 = .ok h ∧
        lookupPath (pathSplit (h.take 2 ++ "/" ++ h.drop 2)) g1.objects =
          .ok (.dcons "__book__"
            (.book (Book.mk (h.take 2 ++ "/" ++ h.drop 2) (some h) (some dta) false)) .dnil) ∧
        (getByHash h g1).1 = .ok dta) := by
  constructor
  · intro d1 d2 hne he
    apply hne
    have h2 := congrArg String.data he
    simp only [hashBlob, String.data_append] at h2
    exact String.ext (List.append_cancel_left h2)
  · intro g dta h g1 hput
    simp only [putData] at hput
    split at hput
    next objects1 hm =>
      cases hput
      refine ⟨rfl, ?_, ?_, ?_⟩
      · have hfd : ∀ (x x1 : Obj) (a : Unit),
            putAt (Book.mk ((hashBlob dta).take 2 ++ "/" ++ (hashBlob dta).drop 2)
              (some (hashBlob dta)) (some dta) false) x = .ok (x1, a) → isDict x1 = true :=
          fun x x1 a hx => by rw [putAt_post hx]; rfl
        have hf2 : ∀ x : Obj, isDict x = true → ∃ y u,
            putAt (Book.mk ((hashBlob dta).take 2 ++ "/" ++ (hashBlob dta).drop 2)
              (some (hashBlob dta)) (some dta) false) x = .ok (y, u) :=
          fun x hdx => ⟨_, (), putAt_dict hdx⟩
        obtain ⟨d2, b2, hb2⟩ := modPath_again hfd hf2 _ _ _ _ hm
        cases b2
        simp [putData, hb2]
      · exact lookupPath_after_modPath (fun x x1 a hx => putAt_post hx) _ _ _ _ hm
      · have hpost : ∀ (x x1 : Obj) (a : Unit),
            putAt (Book.mk ((hashBlob dta).take 2 ++ "/" ++ (hashBlob dta).drop 2)
              (some (hashBlob dta)) (some dta) false) x = .ok (x1, a) →
            getItemAt { g with blobs := alSet (hashBlob dta) dta g.blobs, objects := objects1, dirty := true } (hashBlob dta) x1 = .ok (x1, dta) := by
          intro x x1 a hx
          rw [putAt_post hx]
          have hbk : dlookup "__book__" (Obj.dcons "__book__"
              (.book (Book.mk ((hashBlob dta).take 2 ++ "/" ++ (hashBlob dta).drop 2)
                (some (hashBlob dta)) (some dta) false)) .dnil) =
              some (.book (Book.mk ((hashBlob dta).take 2 ++ "/" ++ (hashBlob dta).drop 2)
                (some (hashBlob dta)) (some dta) false)) := by simp [dlookup]
          exact getItemAt_ready (by simp [isDict]) hbk rfl
        have hg := modPath_preserve hpost _ _ _ _ hm
        simp only [getByHash, hg]
    next e hm => cases hput

/-- Concrete run of claim C8. -/
theorem put_content_addressing_witness :
    hashBlob "ab" ≠ hashBlob "ac" ∧
    (putData "xyz" (putData "xyz" gEmpty).2).1 = .ok "Bxyz" ∧
    lookupPath (pathSplit ("Bxyz".take 2 ++ "/" ++ "Bxyz".drop 2))
      ((putData "xyz" gEmpty).2).objects =
      .ok (.dcons "__book__"
        (.book (Book.mk ("Bxyz".take 2 ++ "/" ++ "Bxyz".drop 2)
          (some "Bxyz") (some "xyz") false)) .dnil) ∧
    (getByHash "Bxyz" (putData "xyz" gEmpty).2).1 = .ok "xyz" := by
  have hmain := put_content_addressing.2 gEmpty "xyz" "Bxyz" (putData "xyz" gEmpty).2 rfl
  exact ⟨put_content_addressing.1 "ab" "ac" (by decide), hmain.2.1, hmain.2.2.1, hmain.2.2.2⟩

/-! ### Split lemmas for path components -/

/-- `splitChars` always returns at least one chunk. -/
theorem splitChars_ne_nil (sep : Char) : ∀ cs : List Char, splitChars sep cs ≠ [] := by
  intro cs
  cases cs with
  | nil => simp [splitChars]
  | cons c rest =>
    simp only [splitChars]
    cases hs : splitChars sep rest with
    | nil => simp only [hs]; simp
    | cons h t => simp only [hs]; split <;> simp

/-- Splitting distributes over a separator occurrence. -/
theorem splitChars_append (sep : Char) :
    ∀ xs ys : List Char,
      splitChars sep (xs ++ sep :: ys) = splitChars sep xs ++ splitChars sep ys := by
  intro xs ys
  induction xs with
  | nil =>
    simp only [List.nil_append, splitChars]
    cases hs : splitChars sep ys with
    | nil => exact absurd hs (splitChars_ne_nil sep ys)
    | cons h t => simp [splitChars]
  | cons x xs ih =>
    simp only [List.cons_append, splitChars, List.append_eq, ih]
    cases hs : splitChars sep xs with
    | nil => exact absurd hs (splitChars_ne_nil sep xs)
    | cons h t =>
      simp only [hs, List.cons_append]
      split <;> simp

/-- A separator-free chunk splits into itself. -/
theorem splitChars_no_sep (sep : Char) :
    ∀ cs : List Char, sep ∉ cs → splitChars sep cs = [cs] := by
  intro cs
  induction cs with
  | nil => intro h; rfl
  | cons c rest ih =>
    intro h
    have hc : ¬c = sep := fun hh => h (hh ▸ List.mem_cons_self c rest)
    have hr : sep ∉ rest := fun hh => h (List.mem_cons_of_mem c hh)
    unfold splitChars
    rw [ih hr]
    simp [hc]

/-- Every chunk produced by `splitChars` is separator-free. -/
theorem splitChars_mem_no_sep (sep : Char) :
    ∀ (cs : List Char) (x : List Char), x ∈ splitChars sep cs → sep ∉ x := by
  intro cs
  induction cs with
  | nil => intro x hx; simp [splitChars] at hx; simp [hx]
  | cons c rest ih =>
    intro x hx
    unfold splitChars at hx
    cases hs : splitChars sep rest with
    | nil => exact absurd hs (splitChars_ne_nil sep rest)
    | cons h t =>
      simp only [hs] at hx
      by_cases hc : c = sep
      · rw [if_pos hc] at hx
        rcases List.mem_cons.mp hx with hx1 | hx2
        · subst hx1; simp
        · exact ih x (hs ▸ hx2)
      · rw [if_neg hc] at hx
        rcases List.mem_cons.mp hx with hx1 | hx2
        · subst hx1
          intro hmem
          rcases List.mem_cons.mp hmem with hh | hh
          · exact hc hh.symm
          · exact ih h (hs ▸ List.mem_cons_self h t) hh
        · exact ih x (hs ▸ List.mem_cons_of_mem h hx2)

/-- Path splitting of a slash-join appends the slash-free component. -/
theorem pathSplit_append (p k : String) (hk : ('/' : Char) ∉ k.data) :
    pathSplit (p ++ "/" ++ k) = pathSplit p ++ [k] := by
  unfold pathSplit
  have hdata : (p ++ "/" ++ k).data = p.data ++ ('/' : Char) :: k.data := by
    simp [String.data_append]
  rw [hdata, splitChars_append, splitChars_no_sep _ _ hk]
  simp

/-- Every component produced by `pathSplit` is slash-free. -/
theorem pathSplit_mem_no_slash (p : String) :
    ∀ x ∈ pathSplit p, ('/' : Char) ∉ x.data := by
  intro x hx
  unfold pathSplit at hx
  obtain ⟨cs, hcs, hmk⟩ := List.mem_map.mp hx
  subst hmk
  exact splitChars_mem_no_sep '/' p.data cs hcs

/-! ### Claim C10: the walker and the `__root__` sentinel -/

/-- All dictionary keys in a hierarchy are slash-free (true of every
hierarchy built through the path API, whose keys are split on `/`). -/
def noSlashKeys : Obj → Bool
  | .dcons k v rest => decide (('/' : Char) ∉ k.data) && noSlashKeys v && noSlashKeys rest
  | _ => true

theorem noSlashKeys_dlookup {k : String} :
    ∀ {d x : Obj}, noSlashKeys d = true → dlookup k d = some x → noSlashKeys x = true := by
  intro d
  induction d with
  | dnil => intro x _ h; simp [dlookup] at h
  | dcons k1 v rest ih1 ih2 =>
    intro x hns h
    simp only [noSlashKeys, Bool.and_eq_true] at hns
    simp only [dlookup] at h
    by_cases h1 : k1 = k
    · rw [if_pos h1] at h; cases h; exact hns.1.2
    · rw [if_neg h1] at h; exact ih2 hns.2 h
  | book b => intro x _ h; simp [dlookup] at h
  | str s => intro x _ h; simp [dlookup] at h

theorem noSlashKeys_dinsert {k : String} {v : Obj} (hk : ('/' : Char) ∉ k.data)
    (hv : noSlashKeys v = true) :
    ∀ {d : Obj}, noSlashKeys d = true → noSlashKeys (dinsert k v d) = true := by
  intro d
  induction d with
  | dnil => intro _; simp [dinsert, noSlashKeys, hk, hv]
  | dcons k1 v1 rest ih1 ih2 =>
    intro hns
    simp only [noSlashKeys, Bool.and_eq_true] at hns
    by_cases h1 : k1 = k
    · rw [dinsert, if_pos h1]
      simp [noSlashKeys, hk, hv, hns.2]
    · rw [dinsert, if_neg h1]
      simp [noSlashKeys, hns.1.1, hns.1.2, ih2 hns.2]
  | book b => intro _; simp [dinsert, noSlashKeys, hk, hv]
  | str s => intro _; simp [dinsert, noSlashKeys, hk, hv]

/-- A mutating walk along slash-free components with a key-hygienic
transformer keeps all keys slash-free. -/
theorem modPath_noSlash {α : Type} {f : Obj → Except Err (Obj × α)}
    (hf : ∀ x x1 a, noSlashKeys x = true → f x = .ok (x1, a) → noSlashKeys x1 = true) :
    ∀ (parts : List String) (d d1 : Obj) (a : α),
      (∀ part ∈ parts, ('/' : Char) ∉ part.data) → noSlashKeys d = true →
      modPath f true parts d = .ok (d1, a) → noSlashKeys d1 = true := by
  intro parts
  induction parts with
  | nil =>
    intro d d1 a _ hns h
    simp only [modPath] at h
    exact hf d d1 a hns h
  | cons part ps ih =>
    intro d d1 a hparts hns h
    have hpart : ('/' : Char) ∉ part.data := hparts part (List.mem_cons_self part ps)
    have hps : ∀ x ∈ ps, ('/' : Char) ∉ x.data :=
      fun x hx => hparts x (List.mem_cons_of_mem part hx)
    simp only [modPath] at h
    split at h
    case isTrue hd =>
      cases hl : dlookup part d with
      | some x =>
        simp only [hl] at h
        cases hr : modPath f true ps x with
        | ok pr =>
          obtain ⟨x1, a1⟩ := pr
          simp only [hr] at h
          cases h
          exact noSlashKeys_dinsert hpart
            (ih x x1 a hps (noSlashKeys_dlookup hns hl) hr) hns
        | error e => simp only [hr] at h; exact absurd h (by simp)
      | none =>
        simp only [hl] at h
        simp only [if_true] at h
        cases hr : modPath f true ps .dnil with
        | ok pr =>
          obtain ⟨x1, a1⟩ := pr
          simp only [hr] at h
          cases h
          exact noSlashKeys_dinsert hpart (ih .dnil x1 a hps rfl hr) hns
        | error e => simp only [hr] at h; exact absurd h (by simp)
    case isFalse hd => exact absurd h (by simp)

/-- `__setitem__`'s node transformer only installs the slash-free
`__book__` key. -/
theorem setItemAt_noSlash {p v : String} :
    ∀ (x x1 : Obj) (a : Unit), noSlashKeys x = true → setItemAt p v x = .ok (x1, a) →
      noSlashKeys x1 = true := by
  intro x x1 a hns h
  unfold setItemAt at h
  split at h
  case isTrue hd =>
    cases hb : dlookup "__book__" x with
    | some y =>
      cases y with
      | book b =>
        simp only [hb] at h
        cases h
        exact noSlashKeys_dinsert (by decide) (by simp [noSlashKeys]) hns
      | dnil => simp only [hb] at h; exact absurd h (by simp)
      | dcons k2 v2 r2 => simp only [hb] at h; exact absurd h (by simp)
      | str s2 => simp only [hb] at h; exact absurd h (by simp)
    | none =>
      simp only [hb] at h
      cases h
      rfl
  case isFalse hd => exact absurd h (by simp)

/-- The walker never yields a key with a `__root__` component, as long as
the prefix has none and all dictionary keys are slash-free. -/
theorem walkerKeys_no_root :
    ∀ (d : Obj) (path : String) (l : List String),
      noSlashKeys d = true → "__root__" ∉ pathSplit path →
      walkerKeys path d = .ok l → ∀ key ∈ l, "__root__" ∉ pathSplit key := by
  intro d
  induction d with
  | dnil =>
    intro path l _ _ h key hk
    simp only [walkerKeys] at h
    cases h
    simp at hk
  | dcons k v rest ih1 ih2 =>
    intro path l hns hpath h key hk
    simp only [noSlashKeys, Bool.and_eq_true] at hns
    have hkslash : ('/' : Char) ∉ k.data := of_decide_eq_true hns.1.1
    unfold walkerKeys at h
    by_cases hk0 : k = "__root__"
    · rw [if_pos hk0] at h
      exact ih2 path l hns.2 hpath h key hk
    · rw [if_neg hk0] at h
      by_cases hdv : isDict v = true
      case pos =>
        rw [if_pos hdv] at h
        have hkey0 : "__root__" ∉
            pathSplit (if path = "" then k else path ++ "/" ++ k) := by
          by_cases hpe : path = ""
          · rw [if_pos hpe]
            unfold pathSplit
            rw [splitChars_no_sep _ _ hkslash]
            intro hmem
            simp only [List.map_cons, List.map_nil, List.mem_singleton] at hmem
            exact hk0 hmem.symm
          · rw [if_neg hpe, pathSplit_append _ _ hkslash]
            intro hmem
            rcases List.mem_append.mp hmem with hm | hm
            · exact hpath hm
            · simp at hm; exact hk0 hm.symm
        by_cases hleaf : isLeaf v = true
        case pos =>
          rw [if_pos hleaf] at h
          cases hr : walkerKeys path rest with
          | ok l2 =>
            simp only [hr] at h
            cases h
            rcases List.mem_cons.mp hk with hkey | hkey
            · subst hkey; exact hkey0
            · exact ih2 path l2 hns.2 hpath hr key hkey
          | error e => simp only [hr] at h; exact absurd h (by simp)
        case neg =>
          rw [if_neg hleaf] at h
          cases hsub : walkerKeys (if path = "" then k else path ++ "/" ++ k) v with
          | ok sub =>
            simp only [hsub] at h
            cases hr : walkerKeys path rest with
            | ok l2 =>
              simp only [hr] at h
              cases h
              rcases List.mem_append.mp hk with hkey | hkey
              · exact ih1 _ sub hns.1.2 hkey0 hsub key hkey
              · exact ih2 path l2 hns.2 hpath hr key hkey
            | error e => simp only [hr] at h; exact absurd h (by simp)
          | error e => simp only [hsub] at h; exact absurd h (by simp)
      case neg =>
        rw [if_neg hdv] at h
        exact absurd h (by simp)
  | book b => intro path l _ _ h key hk; simp [walkerKeys] at h
  | str s => intro path l _ _ h key hk; simp [walkerKeys] at h

/-- Claim C10: on a slash-free-keyed hierarchy the iteration walker never
yields a key with a path component equal to the sentinel `__root__`; in
particular a value stored by `set` under a path with a `__root__`
component is invisible to iteration even though the `set` succeeded. -/
theorem walker_never_yields_root :
    (∀ (g : GS) (l : List String), noSlashKeys g.objects = true →
        walkerKeys "" g.objects = .ok l → ∀ key ∈ l, "__root__" ∉ pathSplit key) ∧
    (∀ (g : GS) (p v : String) (g1 : GS) (l : List String),
        noSlashKeys g.objects = true → "__root__" ∈ pathSplit p →
        setItem p v g = (.ok (), g1) →
        walkerKeys "" g1.objects = .ok l → p ∉ l) := by
  have part1 : ∀ (d : Obj) (l : List String), noSlashKeys d = true →
      walkerKeys "" d = .ok l → ∀ key ∈ l, "__root__" ∉ pathSplit key :=
    fun d l hns hw => walkerKeys_no_root d "" l hns (by decide) hw
  refine ⟨fun g l hns hw => part1 g.objects l hns hw, ?_⟩
  intro g p v g1 l hns hroot hset hw hmem
  unfold setItem at hset
  cases hm : modPath (setItemAt p v) true (pathSplit p) g.objects with
  | error e => rw [hm] at hset; cases hset
  | ok pr =>
    obtain ⟨objects1, u⟩ := pr
    cases u
    rw [hm] at hset
    cases hset
    have hns1 : noSlashKeys objects1 = true :=
      modPath_noSlash setItemAt_noSlash (pathSplit p) g.objects objects1 ()
        (pathSplit_mem_no_slash p) hns hm
    exact part1 objects1 l hns1 hw p hmem hroot

/-- Concrete run of claim C10: a value set under `a/__root__` is accepted
but invisible to iteration, which yields only the ordinary leaf. -/
theorem walker_never_yields_root_witness :
    (setItem "a/__root__" "v" (setItem "a/b" "w" gEmpty).2).1 = .ok () ∧
    walkerKeys ""
      ((setItem "a/__root__" "v" (setItem "a/b" "w" gEmpty).2).2).objects = .ok ["a/b"] ∧
    "a/__root__" ∉ ["a/b"] :=
  ⟨rfl, rfl,
    walker_never_yields_root.2 (setItem "a/b" "w" gEmpty).2 "a/__root__" "v"
      (setItem "a/__root__" "v" (setItem "a/b" "w" gEmpty).2).2 ["a/b"]
      (by decide) (by decide) rfl rfl⟩

/-! ### Wellformed-spine lemmas for pruning and membership -/

theorem wfSpine_isDict_derase {d : Obj} (k : String) (hwf : wfSpine d = true)
    (h : isDict d = true) : isDict (derase k d) = true := by
  cases d with
  | dnil => simp [derase, isDict]
  | dcons k1 v rest =>
    simp only [wfSpine, Bool.and_eq_true] at hwf
    by_cases h1 : k1 = k
    · rw [derase, if_pos h1]; exact hwf.1.1.1
    · rw [derase, if_neg h1]; rfl
  | book b => simp [isDict] at h
  | str s => simp [isDict] at h

theorem wfSpine_dlookup {k : String} :
    ∀ {d x : Obj}, wfSpine d = true → dlookup k d = some x → wfSpine x = true := by
  intro d
  induction d with
  | dnil => intro x _ h; simp [dlookup] at h
  | dcons k1 v rest ih1 ih2 =>
    intro x hwf h
    simp only [wfSpine, Bool.and_eq_true] at hwf
    simp only [dlookup] at h
    by_cases h1 : k1 = k
    · rw [if_pos h1] at h; cases h; exact hwf.1.2
    · rw [if_neg h1] at h; exact ih2 hwf.2 h
  | book b => intro x _ h; simp [dlookup] at h
  | str s => intro x _ h; simp [dlookup] at h

theorem dlookup_derase_self {k : String} :
    ∀ {d : Obj}, wfSpine d = true → dlookup k (derase k d) = none := by
  intro d
  induction d with
  | dnil => intro _; rfl
  | dcons k1 v rest ih1 ih2 =>
    intro hwf
    simp only [wfSpine, Bool.and_eq_true] at hwf
    by_cases h1 : k1 = k
    · rw [derase, if_pos h1]
      have hm := hwf.1.1.2
      rw [h1] at hm
      cases hl : dlookup k rest with
      | none => rfl
      | some y =>
        exfalso
        have hms : dmem k rest = true := by simp [dmem, hl]
        rw [hms] at hm
        simp at hm
    · rw [derase, if_neg h1, dlookup, if_neg h1]
      exact ih2 hwf.2
  | book b => intro _; rfl
  | str s => intro _; rfl

theorem wfSpine_derase (k : String) :
    ∀ {d : Obj}, wfSpine d = true → wfSpine (derase k d) = true := by
  intro d
  induction d with
  | dnil => intro _; rfl
  | dcons k1 v rest ih1 ih2 =>
    intro hwf
    simp only [wfSpine, Bool.and_eq_true] at hwf
    by_cases h1 : k1 = k
    · rw [derase, if_pos h1]; exact hwf.2
    · rw [derase, if_neg h1]
      simp only [wfSpine, Bool.and_eq_true]
      refine ⟨⟨⟨wfSpine_isDict_derase k hwf.2 hwf.1.1.1, ?_⟩, hwf.1.2⟩, ih2 hwf.2⟩
      have hm := hwf.1.1.2
      simp only [dmem] at hm ⊢
      rw [Obj.dlookup_derase_ne h1 rest]
      exact hm
  | book b => intro _; rfl
  | str s => intro _; rfl

theorem wfSpine_dinsert {k : String} {v : Obj} (hv : wfSpine v = true) :
    ∀ {d : Obj}, isDict d = true → wfSpine d = true → wfSpine (dinsert k v d) = true := by
  intro d
  induction d with
  | dnil => intro _ _; simp [dinsert, wfSpine, hv, dmem, dlookup, isDict]
  | dcons k1 v1 rest ih1 ih2 =>
    intro _ hwf
    simp only [wfSpine, Bool.and_eq_true] at hwf
    by_cases h1 : k1 = k
    · rw [dinsert, if_pos h1]
      subst h1
      simp only [wfSpine, Bool.and_eq_true]
      exact ⟨⟨⟨hwf.1.1.1, hwf.1.1.2⟩, hv⟩, hwf.2⟩
    · rw [dinsert, if_neg h1]
      simp only [wfSpine, Bool.and_eq_true]
      refine ⟨⟨⟨by simp, ?_⟩, hwf.1.2⟩, ih2 hwf.1.1.1 hwf.2⟩
      have hm := hwf.1.1.2
      simp only [dmem] at hm ⊢
      rw [Obj.dlookup_dinsert_ne v h1 rest]
      exact hm
  | book b => intro hD _; simp [isDict] at hD
  | str s => intro hD _; simp [isDict] at hD

theorem wfSpine_lookupPath :
    ∀ (parts : List String) {d x : Obj}, wfSpine d = true →
      lookupPath parts d = .ok x → wfSpine x = true := by
  intro parts
  induction parts with
  | nil =>
    intro d x hwf h
    simp only [lookupPath] at h
    cases h
    exact hwf
  | cons part ps ih =>
    intro d x hwf h
    simp only [lookupPath] at h
    split at h
    case isTrue hd =>
      cases hl : dlookup part d with
      | some y =>
        simp only [hl] at h
        exact ih (wfSpine_dlookup hwf hl) h
      | none => simp only [hl] at h; cases h
    case isFalse hd => cases h

theorem dlen_pos_of_dmem {k : String} :
    ∀ {d : Obj}, dmem k d = true → 1 ≤ dlen d := by
  intro d
  cases d with
  | dnil => intro h; simp [dmem, dlookup] at h
  | dcons k1 v rest => intro _; simp only [dlen]; omega
  | book b => intro h; simp [dmem, dlookup] at h
  | str s => intro h; simp [dmem, dlookup] at h

theorem dlen_two_of_dmem {k1 k2 : String} (hne : k1 ≠ k2) :
    ∀ {d : Obj}, dmem k1 d = true → dmem k2 d = true → 2 ≤ dlen d := by
  intro d
  induction d with
  | dnil => intro h _; simp [dmem, dlookup] at h
  | dcons k0 v rest ih1 ih2 =>
    intro h1 h2
    simp only [dmem, dlookup] at h1 h2
    by_cases h0 : k0 = k1
    · have h2r : dmem k2 rest = true := by
        rw [if_neg (h0 ▸ hne : ¬k0 = k2)] at h2
        exact h2
      have := dlen_pos_of_dmem h2r
      simp only [dlen]
      omega
    · by_cases h02 : k0 = k2
      · have h1r : dmem k1 rest = true := by
          rw [if_neg h0] at h1
          exact h1
        have := dlen_pos_of_dmem h1r
        simp only [dlen]
        omega
      · rw [if_neg h0] at h1
        rw [if_neg h02] at h2
        have := ih2 h1 h2
        simp only [dlen]
        omega
  | book b => intro h _; simp [dmem, dlookup] at h
  | str s => intro h _; simp [dmem, dlookup] at h

/-- A wellformed dictionary passes the one-leaf test iff it is exactly the
single `__book__` binding. -/
theorem isLeaf_shape {d : Obj} (hwf : wfSpine d = true) (hd : isDict d = true) :
    (dlen d == 1 && dmem "__book__" d) = true ↔ ∃ x, d = .dcons "__book__" x .dnil := by
  constructor
  · intro h
    simp only [Bool.and_eq_true, beq_iff_eq] at h
    cases d with
    | dnil => simp [dlen] at h
    | dcons k v rest =>
      simp only [wfSpine, Bool.and_eq_true] at hwf
      have hrest : dlen rest = 0 := by
        have := h.1
        simp only [dlen] at this
        omega
      have hrestnil : rest = Obj.dnil := by
        cases hr : rest with
        | dnil => rfl
        | dcons k2 v2 r2 => rw [hr] at hrest; simp [dlen] at hrest
        | book b => rw [hr] at hwf; exact absurd hwf.1.1.1 (by simp [isDict])
        | str s => rw [hr] at hwf; exact absurd hwf.1.1.1 (by simp [isDict])
      subst hrestnil
      have hk : k = "__book__" := by
        have hm := h.2
        simp only [dmem, dlookup] at hm
        by_cases hk0 : k = "__book__"
        · exact hk0
        · rw [if_neg hk0] at hm; simp at hm
      subst hk
      exact ⟨v, rfl⟩
    | book b => simp [isDict] at hd
    | str s => simp [isDict] at hd
  · rintro ⟨x, rfl⟩
    simp [dlen, dmem, dlookup]

/-! ### Cleanup-loop lemmas -/

/-- The cleanup loop keeps every binding, erasing each value's own
`__root__` entry. -/
theorem cleanupLoop_dlookup {k : String} :
    ∀ {d d2 : Obj}, cleanupLoop d = .ok d2 →
      dlookup k d2 = (dlookup k d).map (derase "__root__") := by
  intro d
  induction d with
  | dnil => intro d2 h; cases h; rfl
  | dcons k1 v rest ih1 ih2 =>
    intro d2 h
    cases v with
    | book b => simp [cleanupLoop] at h
    | str s =>
      simp only [cleanupLoop] at h
      cases hr : cleanupLoop rest with
      | ok rest1 =>
        rw [hr] at h
        cases h
        by_cases h1 : k1 = k
        · simp [dlookup, h1, derase]
        · simp [dlookup, h1, ih2 hr]
      | error e => rw [hr] at h; cases h
    | dnil =>
      simp only [cleanupLoop] at h
      cases hr : cleanupLoop rest with
      | ok rest1 =>
        rw [hr] at h
        cases h
        by_cases h1 : k1 = k
        · simp [dlookup, h1]
        · simp [dlookup, h1, ih2 hr]
      | error e => rw [hr] at h; cases h
    | dcons k2 v2 r2 =>
      simp only [cleanupLoop] at h
      cases hr : cleanupLoop rest with
      | ok rest1 =>
        rw [hr] at h
        cases h
        by_cases h1 : k1 = k
        · simp [dlookup, h1]
        · simp [dlookup, h1, ih2 hr]
      | error e => rw [hr] at h; cases h
  | book b => intro d2 h; cases h; rfl
  | str s => intro d2 h; cases h; rfl

/-- The cleanup loop maps dictionaries to dictionaries. -/
theorem cleanupLoop_isDict :
    ∀ {d d2 : Obj}, isDict d = true → cleanupLoop d = .ok d2 → isDict d2 = true := by
  intro d d2 hd h
  cases d with
  | dnil => cases h; rfl
  | dcons k1 v rest =>
    cases v with
    | book b => simp [cleanupLoop] at h
    | str s =>
      simp only [cleanupLoop] at h
      cases hr : cleanupLoop rest with
      | ok rest1 => rw [hr] at h; cases h; rfl
      | error e => rw [hr] at h; cases h
    | dnil =>
      simp only [cleanupLoop] at h
      cases hr : cleanupLoop rest with
      | ok rest1 => rw [hr] at h; cases h; rfl
      | error e => rw [hr] at h; cases h
    | dcons k2 v2 r2 =>
      simp only [cleanupLoop] at h
      cases hr : cleanupLoop rest with
      | ok rest1 => rw [hr] at h; cases h; rfl
      | error e => rw [hr] at h; cases h
  | book b => simp [isDict] at hd
  | str s => simp [isDict] at hd

/-- The cleanup loop preserves spine wellformedness. -/
theorem cleanupLoop_wf :
    ∀ {d d2 : Obj}, wfSpine d = true → cleanupLoop d = .ok d2 → wfSpine d2 = true := by
  intro d
  induction d with
  | dnil => intro d2 _ h; cases h; rfl
  | dcons k1 v rest ih1 ih2 =>
    intro d2 hwf h
    simp only [wfSpine, Bool.and_eq_true] at hwf
    have hmem : ∀ rest1, cleanupLoop rest = .ok rest1 → (!dmem k1 rest1) = true := by
      intro rest1 hr
      have := @cleanupLoop_dlookup k1 _ _ hr
      simp only [dmem] at hwf ⊢
      rw [this]
      cases hl : dlookup k1 rest with
      | none => rfl
      | some y =>
        exfalso
        have := hwf.1.1.2
        rw [hl] at this
        simp at this
    cases v with
    | book b => simp [cleanupLoop] at h
    | str s =>
      simp only [cleanupLoop] at h
      cases hr : cleanupLoop rest with
      | ok rest1 =>
        rw [hr] at h
        cases h
        simp only [wfSpine, Bool.and_eq_true]
        exact ⟨⟨⟨cleanupLoop_isDict hwf.1.1.1 hr, hmem _ hr⟩, trivial⟩, ih2 hwf.2 hr⟩
      | error e => rw [hr] at h; cases h
    | dnil =>
      simp only [cleanupLoop] at h
      cases hr : cleanupLoop rest with
      | ok rest1 =>
        rw [hr] at h
        cases h
        simp only [wfSpine, Bool.and_eq_true]
        exact ⟨⟨⟨cleanupLoop_isDict hwf.1.1.1 hr, hmem _ hr⟩, trivial⟩, ih2 hwf.2 hr⟩
      | error e => rw [hr] at h; cases h
    | dcons k2 v2 r2 =>
      simp only [cleanupLoop] at h
      cases hr : cleanupLoop rest with
      | ok rest1 =>
        rw [hr] at h
        cases h
        simp only [wfSpine, Bool.and_eq_true]
        exact ⟨⟨⟨cleanupLoop_isDict hwf.1.1.1 hr, hmem _ hr⟩,
          wfSpine_derase _ hwf.1.2⟩, ih2 hwf.2 hr⟩
      | error e => rw [hr] at h; cases h
  | book b => intro d2 _ h; cases h; rfl
  | str s => intro d2 _ h; cases h; rfl

/-! ### Prune lemmas -/

theorem dlookup_isDict {k : String} {d x : Obj} (h : dlookup k d = some x) :
    isDict d = true := by
  cases d with
  | dnil => simp [dlookup] at h
  | dcons k1 v rest => rfl
  | book b => simp [dlookup] at h
  | str s => simp [dlookup] at h

/-- Erasing a `__root__` entry preserves resolution along a path that
does not start with `__root__`. -/
theorem lookupPath_derase_root (c : String) (ps : List String) (x : Obj)
    (hc : c ≠ "__root__") (hwf : wfSpine x = true) :
    lookupPath (c :: ps) (derase "__root__" x) = lookupPath (c :: ps) x := by
  cases x with
  | dnil => rfl
  | book b => rfl
  | str s => rfl
  | dcons k v rest =>
    simp only [lookupPath]
    rw [wfSpine_isDict_derase "__root__" hwf rfl, Obj.dlookup_derase_ne hc]
    rfl

/-- A `KeyError`-failing resolution keeps failing with a `KeyError` after
a `__root__` entry is erased. -/
theorem lookupPath_derase_root_fail :
    ∀ (parts : List String) (x : Obj) (k : String), wfSpine x = true →
      lookupPath parts x = .error (.keyError k) →
      ∃ k2, lookupPath parts (derase "__root__" x) = .error (.keyError k2) := by
  intro parts x k hwf h
  cases parts with
  | nil => simp [lookupPath] at h
  | cons c ps =>
    by_cases hc : c = "__root__"
    · subst hc
      simp only [lookupPath] at h ⊢
      by_cases hd : isDict x = true
      · rw [wfSpine_isDict_derase "__root__" hwf hd, if_pos rfl, dlookup_derase_self hwf]
        exact ⟨"__root__", rfl⟩
      · rw [if_neg hd] at h
        simp at h
    · rw [lookupPath_derase_root c ps x hc hwf]
      exact ⟨k, h⟩

/-- A `KeyError`-failing resolution makes the read-only mutating walk of
`__getitem__` fail with the same `KeyError`. -/
theorem modPath_keyError {α : Type} {f : Obj → Except Err (Obj × α)} :
    ∀ (parts : List String) (d : Obj) (k : String),
      lookupPath parts d = .error (.keyError k) →
      modPath f false parts d = .error (.keyError k) := by
  intro parts
  induction parts with
  | nil => intro d k h; simp [lookupPath] at h
  | cons c ps ih =>
    intro d k h
    simp only [lookupPath] at h
    simp only [modPath]
    split at h
    case isTrue hd =>
      rw [if_pos hd]
      cases hl : dlookup c d with
      | some x =>
        simp only [hl] at h ⊢
        rw [ih x k h]
      | none =>
        simp only [hl] at h ⊢
        cases h
        simp
    case isFalse hd => simp at h

/-- Pruning preserves spine wellformedness. -/
theorem prune_wf :
    ∀ (parts : List String) (d : Obj) (r : Int) (d1 : Obj) (dirt : Bool),
      wfSpine d = true → pruneTree parts d = (.ok r, d1, dirt) → wfSpine d1 = true := by
  intro parts
  induction parts with
  | nil => intro d r d1 dirt _ h; simp [pruneTree] at h
  | cons p0 rest ih =>
    cases rest with
    | nil =>
      intro d r d1 dirt hwf h
      simp only [pruneTree] at h
      cases hl : dlookup p0 d with
      | none => simp only [hl] at h; cases h
      | some v =>
        simp only [hl] at h
        cases hp : pyLen v with
        | ok l => simp only [hp] at h; cases h; exact wfSpine_derase p0 hwf
        | error e => simp only [hp] at h; cases h
    | cons p1 ps =>
      intro d r d1 dirt hwf h
      simp only [pruneTree] at h
      split at h
      case isTrue hd =>
        cases hl : dlookup p0 d with
        | none => simp only [hl] at h; cases h
        | some child =>
          simp only [hl] at h
          split at h
          next e c1 dt heq => cases h
          next left c1 dt heq =>
            have hwfchild := wfSpine_dlookup hwf hl
            have hwfchild1 := ih child left c1 dt hwfchild heq
            have hwfd1a : wfSpine (dinsert p0 c1 d) = true :=
              wfSpine_dinsert hwfchild1 hd hwf
            by_cases hcond : (left > 0 ∨ dlen c1 > (if dmem "__root__" c1 then (1 : Nat) else 0))
            case pos =>
              rw [if_pos hcond] at h
              cases hcl : cleanupRoots (dinsert p0 c1 d) with
              | ok d2 =>
                simp only [hcl] at h
                cases h
                unfold cleanupRoots at hcl
                exact cleanupLoop_wf (wfSpine_derase "__root__" hwfd1a) hcl
              | error e => simp only [hcl] at h; cases h
            case neg =>
              rw [if_neg hcond] at h
              cases hl2 : dlookup p0 (dinsert p0 c1 d) with
              | none => simp only [hl2] at h; cases h
              | some v =>
                simp only [hl2] at h
                cases hp : pyLen v with
                | ok l => simp only [hp] at h; cases h; exact wfSpine_derase p0 hwfd1a
                | error e => simp only [hp] at h; cases h
      case isFalse hd => cases h

/-- After a successful prune, resolving the pruned path fails with a
`KeyError`. -/
theorem prune_lookup_fail :
    ∀ (parts : List String) (d : Obj) (r : Int) (d1 : Obj) (dirt : Bool),
      wfSpine d = true → pruneTree parts d = (.ok r, d1, dirt) →
      ∃ k, lookupPath parts d1 = .error (.keyError k) := by
  intro parts
  induction parts with
  | nil => intro d r d1 dirt _ h; simp [pruneTree] at h
  | cons p0 rest ih =>
    cases rest with
    | nil =>
      intro d r d1 dirt hwf h
      simp only [pruneTree] at h
      cases hl : dlookup p0 d with
      | none => simp only [hl] at h; cases h
      | some v =>
        simp only [hl] at h
        cases hp : pyLen v with
        | ok l =>
          simp only [hp] at h
          cases h
          refine ⟨p0, ?_⟩
          simp only [lookupPath]
          rw [wfSpine_isDict_derase p0 hwf (dlookup_isDict hl), if_pos rfl,
            dlookup_derase_self hwf]
        | error e => simp only [hp] at h; cases h
    | cons p1 ps =>
      intro d r d1 dirt hwf h
      simp only [pruneTree] at h
      split at h
      case isTrue hd =>
        cases hl : dlookup p0 d with
        | none => simp only [hl] at h; cases h
        | some child =>
          simp only [hl] at h
          split at h
          next e c1 dt heq => cases h
          next left c1 dt heq =>
            have hwfchild := wfSpine_dlookup hwf hl
            have hwfchild1 := prune_wf (p1 :: ps) child left c1 dt hwfchild heq
            have hwfd1a : wfSpine (dinsert p0 c1 d) = true :=
              wfSpine_dinsert hwfchild1 hd hwf
            obtain ⟨ki, hki⟩ := ih child left c1 dt hwfchild heq
            by_cases hcond : (left > 0 ∨ dlen c1 > (if dmem "__root__" c1 then (1 : Nat) else 0))
            case pos =>
              rw [if_pos hcond] at h
              cases hcl : cleanupRoots (dinsert p0 c1 d) with
              | ok d2 =>
                simp only [hcl] at h
                cases h
                unfold cleanupRoots at hcl
                have hd2dict : isDict d1 = true :=
                  cleanupLoop_isDict
                    (wfSpine_isDict_derase "__root__" hwfd1a (by simp)) hcl
                have hmap := @cleanupLoop_dlookup p0 _ _ hcl
                by_cases hp0 : p0 = "__root__"
                · subst hp0
                  refine ⟨"__root__", ?_⟩
                  simp only [lookupPath]
                  rw [hd2dict, if_pos rfl, hmap, dlookup_derase_self hwfd1a]
                  rfl
                · obtain ⟨k2, hk2⟩ :=
                    lookupPath_derase_root_fail (p1 :: ps) c1 ki hwfchild1 hki
                  refine ⟨k2, ?_⟩
                  simp only [lookupPath]
                  rw [hd2dict, if_pos rfl, hmap, Obj.dlookup_derase_ne hp0,
                    Obj.dlookup_dinsert_self]
                  simpa using hk2
              | error e => simp only [hcl] at h; cases h
            case neg =>
              rw [if_neg hcond] at h
              cases hl2 : dlookup p0 (dinsert p0 c1 d) with
              | none => simp only [hl2] at h; cases h
              | some v =>
                simp only [hl2] at h
                cases hp : pyLen v with
                | ok l =>
                  simp only [hp] at h
                  cases h
                  refine ⟨p0, ?_⟩
                  simp only [lookupPath]
                  rw [wfSpine_isDict_derase p0 hwfd1a (by simp), if_pos rfl,
                    dlookup_derase_self hwfd1a]
                | error e => simp only [hp] at h; cases h
      case isFalse hd => cases h

/-! ### Claim C5 (corrected): delete, get and contains -/

/-- Counterexample to claim C5 as stated: after a successful delete,
`__contains__` does not return `False` for the now-missing path — it
raises the `KeyError` coming from `get_tree`, which it does not catch. -/
theorem contains_raises_after_delete :
    (delItem "a" (setItem "a" "x" gEmpty).2).1 = .ok () ∧
    containsItem "a" ((delItem "a" (setItem "a" "x" gEmpty).2).2) = .error (.keyError "a") :=
  ⟨rfl, rfl⟩

/-- Amended claim C5: after `delete(p)` succeeds on a wellformed
hierarchy, `get(p)` raises `KeyError(p)` and `contains(p)` raises a
`KeyError` as well (instead of returning false); and for resolving paths,
`contains` returns true iff the path resolves to exactly one Leaf (a node
holding only the `__book__` slot). -/
theorem delete_then_get_contains :
    (∀ (g : GS) (p : String) (g1 : GS), wfSpine g.objects = true →
        delItem p g = (.ok (), g1) →
        (getItem p g1).1 = .error (.keyError p) ∧
        ∃ k, containsItem p g1 = .error (.keyError k)) ∧
    (∀ (g : GS) (p : String), wfSpine g.objects = true →
        (containsItem p g = .ok true ↔
          ∃ x, lookupPath (pathSplit p) g.objects = .ok (.dcons "__book__" x .dnil))) := by
  constructor
  · intro g p g1 hwf hdel
    unfold delItem at hdel
    split at hdel
    next r o dt heq =>
      cases hdel
      obtain ⟨k, hlk⟩ := prune_lookup_fail (pathSplit p) g.objects r o dt hwf heq
      constructor
      · simp only [getItem, modPath_keyError (pathSplit p) o k hlk]
      · exact ⟨k, by simp only [containsItem, hlk]⟩
    next o dt heq => cases hdel
    next e o dt heq => cases hdel
  · intro g p hwf
    constructor
    · intro hc
      unfold containsItem at hc
      cases hres : lookupPath (pathSplit p) g.objects with
      | ok dd =>
        simp only [hres] at hc
        by_cases hdd : isDict dd = true
        · rw [if_pos hdd] at hc
          have hb : (dlen dd == 1 && dmem "__book__" dd) = true := by injection hc
          obtain ⟨x, hx⟩ :=
            (isLeaf_shape (wfSpine_lookupPath (pathSplit p) hwf hres) hdd).mp hb
          exact ⟨x, by rw [hx]⟩
        · rw [if_neg hdd] at hc; cases hc
      | error e => simp only [hres] at hc; cases hc
    · rintro ⟨x, hx⟩
      simp [containsItem, hx, isDict, dlen, dmem, dlookup]

/-- Concrete run of the amended claim C5. -/
theorem delete_then_get_contains_witness :
    ((getItem "a/b" (delItem "a/b" (setItem "a/b" "x" gEmpty).2).2).1 =
        .error (.keyError "a/b") ∧
      ∃ k, containsItem "a/b" (delItem "a/b" (setItem "a/b" "x" gEmpty).2).2 =
        .error (.keyError k)) ∧
    (containsItem "q" gEmpty = .ok true ↔
      ∃ x, lookupPath (pathSplit "q") gEmpty.objects = .ok (.dcons "__book__" x .dnil)) :=
  ⟨delete_then_get_contains.1 (setItem "a/b" "x" gEmpty).2 "a/b"
      (delItem "a/b" (setItem "a/b" "x" gEmpty).2).2 (by decide) rfl,
   delete_then_get_contains.2 gEmpty "q" (by decide)⟩

/-! ### Claim C7: pruning -/

/-- The hierarchy created by `__setitem__` along a fresh path: a single
chain of directories ending in a one-book leaf holding the written data. -/
def setChain (p v : String) : List String → Obj
  | [] => .dcons "__book__" (.book (Book.mk p none (some v) true)) .dnil
  | part :: ps => .dcons part (setChain p v ps) .dnil

/-- On an empty dictionary, the `__setitem__` walk builds exactly the
single chain. -/
theorem modPath_set_empty (p v : String) :
    ∀ ps : List String, modPath (setItemAt p v) true ps .dnil = .ok (setChain p v ps, ()) := by
  intro ps
  induction ps with
  | nil => simp [modPath, setItemAt, setChain, isDict, dlookup, setData]
  | cons part ps ih => simp [modPath, isDict, dlookup, ih, dinsert, setChain]

/-- Pruning the single chain along its own path empties the dictionary
completely and returns a non-positive count. -/
theorem prune_setChain (p v : String) :
    ∀ ps : List String, ps ≠ [] →
      ∃ r : Int, pruneTree ps (setChain p v ps) = (.ok r, .dnil, true) ∧ r ≤ 0 := by
  intro ps
  induction ps with
  | nil => intro h; exact absurd rfl h
  | cons p0 rest ih =>
    intro _
    cases rest with
    | nil =>
      refine ⟨0, ?_, le_refl 0⟩
      simp [pruneTree, setChain, dlookup, pyLen, dlen, derase]
    | cons p1 ps2 =>
      obtain ⟨r, hr, hr0⟩ := ih (by simp)
      refine ⟨-1, ?_, by norm_num⟩
      have hstep : dlookup p0 (setChain p v (p0 :: p1 :: ps2)) =
          some (setChain p v (p1 :: ps2)) := by
        simp [setChain, dlookup]
      simp only [pruneTree, hstep]
      rw [show setChain p v (p0 :: p1 :: ps2) =
        Obj.dcons p0 (setChain p v (p1 :: ps2)) Obj.dnil from rfl]
      simp only [isDict, if_true]
      rw [hr]
      split
      next e c1 dt heq => simp at heq
      next left c1 dt heq =>
        cases heq
        have hcondF : ¬((r > 0) ∨
            dlen Obj.dnil > (if dmem "__root__" Obj.dnil then (1 : Nat) else 0)) := by
          simp [dlen, dmem, dlookup]
          omega
        rw [if_neg hcondF]
        simp [dinsert, dlookup, pyLen, dlen, derase]

/-- `prune_tree` on a dictionary whose first component is missing raises
that component's `KeyError` without touching anything. -/
theorem prune_head_missing {k : String} {d : Obj} (hd : isDict d = true)
    (hl : dlookup k d = none) :
    ∀ ps : List String, pruneTree (k :: ps) d = (.error (.keyError k), d, false) := by
  intro ps
  cases ps with
  | nil => simp [pruneTree, hl]
  | cons p1 ps2 => simp [pruneTree, hd, hl]

/-- Destructure one successful resolution step. -/
theorem lookupPath_cons_elim {b : String} {qs : List String} {d res : Obj}
    (h : lookupPath (b :: qs) d = .ok res) :
    isDict d = true ∧ ∃ y, dlookup b d = some y ∧ lookupPath qs y = .ok res := by
  simp only [lookupPath] at h
  split at h
  case isTrue hd =>
    cases hl : dlookup b d with
    | some y =>
      simp only [hl] at h
      exact ⟨hd, y, rfl, h⟩
    | none => simp only [hl] at h; cases h
  case isFalse hd => cases h

/-- Rebuild one resolution step. -/
theorem lookupPath_cons_intro {b : String} {qs : List String} {d y : Obj}
    (hd : isDict d = true) (hl : dlookup b d = some y) :
    lookupPath (b :: qs) d = lookupPath qs y := by
  simp [lookupPath, hd, hl]

/-- Deleting one leaf preserves every other leaf: a path that resolves to
its own one-book leaf before the prune, shares no sentinel components and
differs from the pruned leaf path still resolves to the identical leaf
afterwards. -/
theorem prune_preserves_leaf :
    ∀ (pp : List String) (d : Obj) (qq : List String) (xp xq : Obj)
      (r : Int) (d1 : Obj) (dirt : Bool),
      wfSpine d = true →
      pruneTree pp d = (.ok r, d1, dirt) →
      lookupPath pp d = .ok (.dcons "__book__" xp .dnil) →
      lookupPath qq d = .ok (.dcons "__book__" xq .dnil) →
      "__root__" ∉ qq → "__book__" ∉ qq → "__book__" ∉ pp →
      pp ≠ qq → qq ≠ [] →
      lookupPath qq d1 = .ok (.dcons "__book__" xq .dnil) := by
  intro pp
  induction pp with
  | nil =>
    intro d qq xp xq r d1 dirt _ hprune _ _ _ _ _ _ _
    simp [pruneTree] at hprune
  | cons a pp2 ih =>
    intro d qq xp xq r d1 dirt hwf hprune hp hq hqroot hqbook hpbook hne hqne
    cases qq with
    | nil => exact absurd rfl hqne
    | cons b qs =>
      obtain ⟨hdd, y, hby, hqy⟩ := lookupPath_cons_elim hq
      obtain ⟨_, pv, hav, hpv2⟩ := lookupPath_cons_elim hp
      have hbroot : b ≠ "__root__" := fun hh => hqroot (hh ▸ List.mem_cons_self b qs)
      have hqroot2 : "__root__" ∉ qs := fun hh => hqroot (List.mem_cons_of_mem b hh)
      have hqbook2 : "__book__" ∉ qs := fun hh => hqbook (List.mem_cons_of_mem b hh)
      cases pp2 with
      | nil =>
        simp only [pruneTree] at hprune
        cases hla : dlookup a d with
        | none => simp only [hla] at hprune; cases hprune
        | some v =>
          simp only [hla] at hprune
          cases hpl : pyLen v with
          | error e => simp only [hpl] at hprune; cases hprune
          | ok l =>
            simp only [hpl] at hprune
            cases hprune
            have hpveq : pv = Obj.dcons "__book__" xp .dnil := by
              simp only [lookupPath] at hpv2
              cases hpv2
              rfl
            by_cases hba : b = a
            · subst hba
              have hy : y = pv := Option.some.inj (hby.symm.trans hav)
              subst hy
              cases qs with
              | nil => exact absurd rfl hne
              | cons c qs2 =>
                exfalso
                have hcbook : c ≠ "__book__" :=
                  fun hh => hqbook (hh ▸ List.mem_cons_of_mem b (List.mem_cons_self c qs2))
                obtain ⟨_, z, hz, _⟩ := lookupPath_cons_elim hqy
                rw [hpveq] at hz
                simp [dlookup, Ne.symm hcbook] at hz
            · have hlb : dlookup b (derase a d) = some y := by
                rw [Obj.dlookup_derase_ne hba]
                exact hby
              rw [lookupPath_cons_intro (wfSpine_isDict_derase a hwf hdd) hlb]
              exact hqy
      | cons p1 ps =>
        simp only [pruneTree, hdd, eq_self_iff_true, if_true] at hprune
        have hd : isDict d = true := hdd
        cases hla : dlookup a d with
        | none => simp only [hla] at hprune; cases hprune
        | some child =>
          simp only [hla] at hprune
          have hchild : child = pv := Option.some.inj (hla.symm.trans hav)
          rw [← hchild] at hpv2
          split at hprune
          next e c1 dt heq => cases hprune
          next left c1 dt heq =>
            have hwfchild := wfSpine_dlookup hwf hla
            have hwfc1 := prune_wf (p1 :: ps) child left c1 dt hwfchild heq
            have hwfd1a : wfSpine (dinsert a c1 d) = true :=
              wfSpine_dinsert hwfc1 hd hwf
            have hpbook2 : "__book__" ∉ (p1 :: ps) :=
              fun hh => hpbook (List.mem_cons_of_mem a hh)
            by_cases hba : b = a
            · have hy : y = child := by
                rw [hba] at hby
                exact Option.some.inj (hby.symm.trans hla)
              rw [hy] at hqy
              cases qs with
              | nil =>
                exfalso
                have hceq : child = Obj.dcons "__book__" xq .dnil := by
                  simp only [lookupPath] at hqy
                  cases hqy
                  rfl
                have hp1 : p1 ≠ "__book__" :=
                  fun hh => hpbook (hh ▸ List.mem_cons_of_mem a (List.mem_cons_self p1 ps))
                have hnone : dlookup p1 child = none := by
                  rw [hceq]
                  simp [dlookup, Ne.symm hp1]
                rw [prune_head_missing (by rw [hceq]; rfl) hnone ps] at heq
                cases heq
              | cons c qs2 =>
                have hneinner : (p1 :: ps) ≠ (c :: qs2) := by
                  intro hh
                  exact hne (by rw [hba, hh])
                have hIH := ih child (c :: qs2) xp xq left c1 dt hwfchild heq hpv2 hqy
                  hqroot2 hqbook2 hpbook2 hneinner (by simp)
                have hcroot : c ≠ "__root__" :=
                  fun hh => hqroot2 (hh ▸ List.mem_cons_self c qs2)
                by_cases hcond : (left > 0 ∨
                    dlen c1 > (if dmem "__root__" c1 then (1 : Nat) else 0))
                · rw [if_pos hcond] at hprune
                  cases hcl : cleanupRoots (dinsert a c1 d) with
                  | error e => simp only [hcl] at hprune; cases hprune
                  | ok d2 =>
                    simp only [hcl] at hprune
                    cases hprune
                    unfold cleanupRoots at hcl
                    have hd1dict : isDict d1 = true :=
                      cleanupLoop_isDict
                        (wfSpine_isDict_derase "__root__" hwfd1a (by simp)) hcl
                    have hmap := @cleanupLoop_dlookup b _ _ hcl
                    have hlb1 : dlookup b d1 = some (derase "__root__" c1) := by
                      rw [hmap, Obj.dlookup_derase_ne hbroot, hba,
                        Obj.dlookup_dinsert_self]
                      rfl
                    rw [lookupPath_cons_intro hd1dict hlb1,
                      lookupPath_derase_root c qs2 c1 hcroot hwfc1]
                    exact hIH
                · exfalso
                  obtain ⟨hc1dict, z, hcz, _⟩ := lookupPath_cons_elim hIH
                  have hdc : dmem c c1 = true := by simp [dmem, hcz]
                  apply hcond
                  right
                  by_cases hroot : dmem "__root__" c1 = true
                  · rw [if_pos hroot]
                    have := dlen_two_of_dmem hcroot hdc hroot
                    omega
                  · rw [if_neg hroot]
                    have := dlen_pos_of_dmem hdc
                    omega
            · by_cases hcond : (left > 0 ∨
                  dlen c1 > (if dmem "__root__" c1 then (1 : Nat) else 0))
              · rw [if_pos hcond] at hprune
                cases hcl : cleanupRoots (dinsert a c1 d) with
                | error e => simp only [hcl] at hprune; cases hprune
                | ok d2 =>
                  simp only [hcl] at hprune
                  cases hprune
                  unfold cleanupRoots at hcl
                  have hd1dict : isDict d1 = true :=
                    cleanupLoop_isDict
                      (wfSpine_isDict_derase "__root__" hwfd1a (by simp)) hcl
                  have hmap := @cleanupLoop_dlookup b _ _ hcl
                  have hlb1 : dlookup b d1 = some (derase "__root__" y) := by
                    rw [hmap, Obj.dlookup_derase_ne hbroot,
                      Obj.dlookup_dinsert_ne _ hba, hby]
                    rfl
                  rw [lookupPath_cons_intro hd1dict hlb1]
                  have hwfy := wfSpine_dlookup hwf hby
                  cases qs with
                  | nil =>
                    have hyeq : y = Obj.dcons "__book__" xq .dnil := by
                      simp only [lookupPath] at hqy
                      cases hqy
                      rfl
                    rw [hyeq]
                    simp [lookupPath, derase]
                  | cons c qs2 =>
                    have hcroot : c ≠ "__root__" :=
                      fun hh => hqroot2 (hh ▸ List.mem_cons_self c qs2)
                    rw [lookupPath_derase_root c qs2 y hcroot hwfy]
                    exact hqy
              · rw [if_neg hcond] at hprune
                cases hl2 : dlookup a (dinsert a c1 d) with
                | none => simp only [hl2] at hprune; cases hprune
                | some w =>
                  simp only [hl2] at hprune
                  cases hpw : pyLen w with
                  | error e => simp only [hpw] at hprune; cases hprune
                  | ok l =>
                    simp only [hpw] at hprune
                    cases hprune
                    have hlb1 : dlookup b (derase a (dinsert a c1 d)) = some y := by
                      rw [Obj.dlookup_derase_ne hba, Obj.dlookup_dinsert_ne _ hba]
                      exact hby
                    rw [lookupPath_cons_intro
                      (wfSpine_isDict_derase a hwfd1a (by simp)) hlb1]
                    exact hqy

theorem pathSplit_ne_nil (p : String) : pathSplit p ≠ [] := by
  intro h
  exact splitChars_ne_nil '/' p.data (List.map_eq_nil_iff.mp h)

/-- A two-leaf store for exercising deletion with a surviving sibling. -/
def gC7 : GS := (setItem "a/c" "y" (setItem "a/b/x" "w" gEmpty).2).2

/-- Claim C7: (a) on an initially empty store, setting a single (possibly
deeply nested) path and then deleting that same path returns the object
tree to fully empty, both operations succeeding; (b) deleting a leaf
preserves unrelated siblings: any other path that resolved to its own
one-book leaf before the delete still resolves to the identical leaf
afterwards. -/
theorem prune_collapses_and_preserves :
    (∀ (g : GS) (p v : String), g.objects = .dnil →
        (setItem p v g).1 = .ok () ∧
        (delItem p (setItem p v g).2).1 = .ok () ∧
        ((delItem p (setItem p v g).2).2).objects = .dnil) ∧
    (∀ (g g1 : GS) (p q : String) (xp xq : Obj),
        wfSpine g.objects = true →
        lookupPath (pathSplit p) g.objects = .ok (.dcons "__book__" xp .dnil) →
        lookupPath (pathSplit q) g.objects = .ok (.dcons "__book__" xq .dnil) →
        "__root__" ∉ pathSplit q → "__book__" ∉ pathSplit q →
        "__book__" ∉ pathSplit p → pathSplit p ≠ pathSplit q →
        delItem p g = (.ok (), g1) →
        lookupPath (pathSplit q) g1.objects = .ok (.dcons "__book__" xq .dnil)) := by
  constructor
  · intro g p v hobj
    have hset : setItem p v g = (.ok (), { g with objects := setChain p v (pathSplit p), dirty := true }) := by
      unfold setItem
      rw [hobj, modPath_set_empty]
    obtain ⟨r, hpr, _⟩ := prune_setChain p v (pathSplit p) (pathSplit_ne_nil p)
    have hdel : delItem p { g with objects := setChain p v (pathSplit p), dirty := true } =
        (.ok (), { g with objects := .dnil, dirty := true }) := by
      have hpr2 : pruneTree (pathSplit p) ({ g with objects := setChain p v (pathSplit p), dirty := true } : GS).objects = (.ok r, .dnil, true) := hpr
      unfold delItem
      rw [hpr2]
      rfl
    refine ⟨by rw [hset], ?_, ?_⟩
    · rw [hset, hdel]
    · rw [hset, hdel]
  · intro g g1 p q xp xq hwf hp hq hqroot hqbook hpbook hne hdel
    unfold delItem at hdel
    split at hdel
    next r0 d1 dirt hpr =>
      cases hdel
      exact prune_preserves_leaf (pathSplit p) g.objects (pathSplit q) xp xq r0 d1 dirt
        hwf hpr hp hq hqroot hqbook hpbook hne (pathSplit_ne_nil q)
    next k d1 dirt hpr => cases hdel
    next e d1 dirt hpr => cases hdel

/-- Witness for C7 at concrete inputs: set then delete `a/b/c` on the
empty store empties it, and deleting `a/b/x` from a two-leaf store leaves
the sibling leaf `a/c` intact. -/
theorem prune_collapses_and_preserves_witness :
    ((delItem "a/b/c" (setItem "a/b/c" "x" gEmpty).2).2).objects = .dnil ∧
    lookupPath (pathSplit "a/c") ((delItem "a/b/x" gC7).2).objects =
      .ok (.dcons "__book__" (.book (Book.mk "a/c" none (some "y") true)) .dnil) :=
  ⟨(prune_collapses_and_preserves.1 gEmpty "a/b/c" "x" rfl).2.2,
   prune_collapses_and_preserves.2 gC7 (delItem "a/b/x" gC7).2 "a/b/x" "a/c"
     (.book (Book.mk "a/b/x" none (some "w") true))
     (.book (Book.mk "a/c" none (some "y") true))
     rfl rfl rfl (by decide) (by decide) (by decide) (by decide) rfl⟩

@[simp] theorem empty_str_append (s : String) : "" ++ s = s := rfl

/-- The `make_tree` entry loop, on a wellformed hierarchy whose cached
roots are all valid, always succeeds, produces exactly the scratch-rebuilt
entry buffer, and keeps the incoming root alive exactly when no entry
invalidates it. -/
theorem mtLoop_scratch :
    ∀ (n : Obj), wfE n = true → cacheOK n = true →
      ∀ (g : GS) (root : Option Obj),
        ∃ n1 g1, mtLoop g root n =
          (.ok (), n1, (if survives n then root else none), scratchBuf n, g1) := by
  intro n
  induction n with
  | dnil =>
    intro _ _ g root
    exact ⟨.dnil, g, by simp [mtLoop, survives, scratchBuf]⟩
  | book b => intro h _ g root; simp [wfE] at h
  | str s => intro h _ g root; simp [wfE] at h
  | dcons path v rest ihv ihr =>
    intro hwf hc g root
    simp only [wfE, Bool.and_eq_true] at hwf
    simp only [cacheOK, Bool.and_eq_true] at hc
    by_cases hpath : path = "__root__"
    · rw [if_pos hpath] at hwf hc
      obtain ⟨rest1, g1, hr⟩ := ihr hwf.2 hc.2 g root
      refine ⟨.dcons path v rest1, g1, ?_⟩
      unfold mtLoop
      rw [if_pos hpath]
      simp only [hr]
      simp [survives, scratchBuf, hpath]
    · rw [if_neg hpath] at hwf hc
      by_cases hleaf : isLeaf v = true
      · rw [if_pos hleaf] at hwf hc
        cases hb : dlookup "__book__" v with
        | none => rw [hb] at hwf; exact absurd hwf.1 (by simp)
        | some x =>
          cases x with
          | book b =>
            have hdictv : isDict v = true := dlookup_isDict hb
            by_cases hdirty : b.dirty = true
            · obtain ⟨rest1, g1, hr⟩ := ihr hwf.2 hc.2
                { g with blobs := alSet (hashBlob (bookData b)) (bookData b) g.blobs } none
              refine ⟨.dcons path
                (dinsert "__book__"
                  (.book { b with name := some (hashBlob (bookData b)), dirty := false }) v)
                rest1, g1, ?_⟩
              unfold mtLoop
              rw [if_neg hpath, if_pos hdictv, if_pos hleaf]
              simp only [hb, hdirty, if_true, hr]
              simp [survives, scratchBuf, hpath, hleaf, hb, hdirty, ite_self]
            · simp only [Bool.not_eq_true] at hdirty
              obtain ⟨rest1, g1, hr⟩ := ihr hwf.2 hc.2 g root
              refine ⟨.dcons path v rest1, g1, ?_⟩
              unfold mtLoop
              rw [if_neg hpath, if_pos hdictv, if_pos hleaf]
              simp only [hb, hdirty, Bool.false_eq_true, if_false, hr]
              simp [survives, scratchBuf, hpath, hleaf, hb, hdirty]
          | dnil => rw [hb] at hwf; exact absurd hwf.1 (by simp)
          | dcons k2 v2 r2 => rw [hb] at hwf; exact absurd hwf.1 (by simp)
          | str s2 => rw [hb] at hwf; exact absurd hwf.1 (by simp)
      · rw [if_neg hleaf] at hwf hc
        simp only [Bool.and_eq_true] at hwf hc
        obtain ⟨⟨hdictv, hwfv⟩, hwfrest⟩ := hwf
        obtain ⟨⟨hrootv, hcv⟩, hcrest⟩ := hc
        obtain ⟨v1, gv, hv⟩ := ihv hwfv hcv g (dlookup "__root__" v)
        by_cases hs : survives v = true
        · rw [if_pos hs] at hv
          cases hcr : dlookup "__root__" v with
          | none =>
            rw [hcr] at hv
            obtain ⟨rest1, g3, hr⟩ := ihr hwfrest hcrest
              { gv with trees := alSet (hashTree (scratchBuf v)) (scratchBuf v) gv.trees } none
            refine ⟨.dcons path (dinsert "__root__" (.str (hashTree (scratchBuf v))) v1) rest1,
              g3, ?_⟩
            unfold mtLoop
            rw [if_neg hpath, if_pos hdictv, if_neg hleaf]
            simp only [hcr, hv, mtFinish, hr]
            simp [survives, scratchBuf, hpath, hleaf, hcr, scratchHash, ite_self, hr]
          | some x =>
            cases x with
            | str hsh =>
              rw [hcr] at hv
              have hshEq : hsh = scratchHash v := by
                simp only [rootOK, hcr, hs, Bool.not_true, Bool.false_or, beq_iff_eq] at hrootv
                exact hrootv
              obtain ⟨rest1, g3, hr⟩ := ihr hwfrest hcrest gv root
              refine ⟨.dcons path v1 rest1, g3, ?_⟩
              unfold mtLoop
              rw [if_neg hpath, if_pos hdictv, if_neg hleaf]
              simp only [hcr, hv, mtFinish, if_pos rfl, hr]
              simp [survives, scratchBuf, hpath, hleaf, hcr, scratchHash, hshEq, hr]
            | dnil => simp [rootOK, hcr] at hrootv
            | dcons k2 v2 r2 => simp [rootOK, hcr] at hrootv
            | book b2 => simp [rootOK, hcr] at hrootv
        · rw [if_neg hs] at hv
          by_cases hteq : dlookup "__root__" v = some (.str (hashTree (scratchBuf v)))
          · obtain ⟨rest1, g3, hr⟩ := ihr hwfrest hcrest
              { gv with trees := alSet (hashTree (scratchBuf v)) (scratchBuf v) gv.trees } root
            refine ⟨.dcons path (dinsert "__root__" (.str (hashTree (scratchBuf v))) v1) rest1,
              g3, ?_⟩
            unfold mtLoop
            rw [if_neg hpath, if_pos hdictv, if_neg hleaf]
            simp only [hv, mtFinish]
            rw [if_pos hteq]
            simp only [hr]
            simp [survives, scratchBuf, hpath, hleaf, hteq, scratchHash]
          · obtain ⟨rest1, g3, hr⟩ := ihr hwfrest hcrest
              { gv with trees := alSet (hashTree (scratchBuf v)) (scratchBuf v) gv.trees } none
            refine ⟨.dcons path (dinsert "__root__" (.str (hashTree (scratchBuf v))) v1) rest1,
              g3, ?_⟩
            unfold mtLoop
            rw [if_neg hpath, if_pos hdictv, if_neg hleaf]
            simp only [hv, mtFinish]
            rw [if_neg hteq]
            simp only [hr]
            simp [survives, scratchBuf, hpath, hleaf, beq_iff_eq, scratchHash, hteq, ite_self]

/-- On a fully clean, fully cached hierarchy the `make_tree` entry loop
touches nothing: the entries, the incoming root and the store come back
unchanged, and no blob or tree is written. -/
theorem mtLoop_fullyClean :
    ∀ (n : Obj), fullyClean n = true →
      ∀ (g : GS) (root : Option Obj), ∃ buf, mtLoop g root n = (.ok (), n, root, buf, g) := by
  intro n
  induction n with
  | dnil => intro _ g root; exact ⟨"", by simp [mtLoop]⟩
  | book b => intro h g root; simp [fullyClean] at h
  | str s => intro h g root; simp [fullyClean] at h
  | dcons path v rest ihv ihr =>
    intro hfc g root
    simp only [fullyClean, Bool.and_eq_true] at hfc
    by_cases hpath : path = "__root__"
    · rw [if_pos hpath] at hfc
      obtain ⟨buf, hr⟩ := ihr hfc.2 g root
      refine ⟨buf, ?_⟩
      unfold mtLoop
      rw [if_pos hpath]
      simp only [hr]
    · rw [if_neg hpath] at hfc
      by_cases hleaf : isLeaf v = true
      · rw [if_pos hleaf] at hfc
        cases hb : dlookup "__book__" v with
        | none => rw [hb] at hfc; exact absurd hfc.1 (by simp)
        | some x =>
          cases x with
          | book b =>
            simp only [hb] at hfc
            have hdictv : isDict v = true := dlookup_isDict hb
            have hdirty : b.dirty = false := by
              have h1 := hfc.1
              cases hcd : b.dirty
              · rfl
              · rw [hcd] at h1; exact absurd h1 (by simp)
            obtain ⟨buf, hr⟩ := ihr hfc.2 g root
            refine ⟨"100644 blob " ++ optStr b.name ++ "\t" ++ path ++ "\x00" ++ buf, ?_⟩
            unfold mtLoop
            rw [if_neg hpath, if_pos hdictv, if_pos hleaf]
            simp only [hb, hdirty, Bool.false_eq_true, if_false, hr]
          | dnil => rw [hb] at hfc; exact absurd hfc.1 (by simp)
          | dcons k2 v2 r2 => rw [hb] at hfc; exact absurd hfc.1 (by simp)
          | str s2 => rw [hb] at hfc; exact absurd hfc.1 (by simp)
      · rw [if_neg hleaf] at hfc
        have h1 := hfc.1
        simp only [Bool.and_eq_true] at h1
        cases hcr : dlookup "__root__" v with
        | none => rw [hcr] at h1; exact absurd h1.1 (by simp)
        | some x =>
          cases x with
          | str hsh =>
            have hdictv : isDict v = true := dlookup_isDict hcr
            obtain ⟨bufv, hv⟩ := ihv h1.2 g (dlookup "__root__" v)
            obtain ⟨bufr, hr⟩ := ihr hfc.2 g root
            refine ⟨"040000 tree " ++ hsh ++ "\t" ++ path ++ "\x00" ++ bufr, ?_⟩
            unfold mtLoop
            rw [if_neg hpath, if_pos hdictv, if_neg hleaf]
            rw [hcr] at hv
            simp only [hcr, hv, mtFinish, if_pos rfl, if_true, hr]
          | dnil => rw [hcr] at h1; exact absurd h1.1 (by simp)
          | dcons k2 v2 r2 => rw [hcr] at h1; exact absurd h1.1 (by simp)
          | book b2 => rw [hcr] at h1; exact absurd h1.1 (by simp)

/-- Claim C2: (a) on a wellformed hierarchy whose cached roots are valid,
`make_tree` with root-hash caching returns exactly the root hash the
scratch rebuild (ignoring every cached value) produces; (b) on a fully
clean, fully cached hierarchy whose own cached root is present,
`make_tree` returns that cached value unchanged, leaves the entries
untouched and issues no write at all. -/
theorem makeTree_refines_scratch :
    (∀ (g : GS) (n : Obj), wfE n = true → cacheOK n = true → rootOK n = true →
        (makeTree g n).1 = .ok (scratchHash n)) ∧
    (∀ (g : GS) (n : Obj) (r : String), fullyClean n = true →
        dlookup "__root__" n = some (.str r) → makeTree g n = (.ok r, n, g)) := by
  constructor
  · intro g n hwf hc hroot
    unfold makeTree
    obtain ⟨n1, g1, hm⟩ := mtLoop_scratch n hwf hc g (dlookup "__root__" n)
    simp only [hm]
    by_cases hs : survives n = true
    · rw [if_pos hs]
      cases hcr : dlookup "__root__" n with
      | none => simp [mtFinish, scratchHash, hcr]
      | some x =>
        cases x with
        | str h0 =>
          have h0eq : h0 = scratchHash n := by
            simp only [rootOK, hcr, hs, Bool.not_true, Bool.false_or, beq_iff_eq] at hroot
            exact hroot
          simp [mtFinish, hcr, h0eq]
        | dnil => simp [rootOK, hcr] at hroot
        | dcons k2 v2 r2 => simp [rootOK, hcr] at hroot
        | book b2 => simp [rootOK, hcr] at hroot
    · rw [if_neg hs]
      simp [mtFinish, scratchHash]
  · intro g n r hfc hcr
    unfold makeTree
    obtain ⟨buf, hm⟩ := mtLoop_fullyClean n hfc g (dlookup "__root__" n)
    rw [hcr] at hm
    simp only [hcr, hm, mtFinish]

/-- Witness for C2 at concrete inputs: a two-leaf dirty hierarchy's
materialized root equals its scratch hash, and a clean cached hierarchy
returns its (even arbitrary) cached root with no state change. -/
theorem makeTree_refines_scratch_witness :
    (makeTree gEmpty gC7.objects).1 = .ok (scratchHash gC7.objects) ∧
    makeTree gEmpty
      (.dcons "k" (.dcons "__book__" (.book (Book.mk "k" (some "Bv") none false)) .dnil)
        (.dcons "__root__" (.str "cached") .dnil)) =
      (.ok "cached",
       .dcons "k" (.dcons "__book__" (.book (Book.mk "k" (some "Bv") none false)) .dnil)
        (.dcons "__root__" (.str "cached") .dnil), gEmpty) :=
  ⟨makeTree_refines_scratch.1 gEmpty gC7.objects rfl rfl rfl,
   makeTree_refines_scratch.2 gEmpty
     (.dcons "k" (.dcons "__book__" (.book (Book.mk "k" (some "Bv") none false)) .dnil)
       (.dcons "__root__" (.str "cached") .dnil)) "cached" rfl rfl⟩

end Gitshelve
